import Mathlib

/-!
Shallow embedding, in Lean 4, of the DEFLATE inflater of the `gzip`
repository (files `src/bits.rs`, `src/prefix.rs`, `src/inflate.rs`),
together with theorems settling the behavioural claims about it.

Conventions of the embedding:
* Rust machine integers become `Nat` with explicit reductions modulo
  `2 ^ w` exactly where the Rust arithmetic can wrap (release-mode
  semantics of overflowing `+`, `<<`); shifts whose operand cannot wrap
  keep the plain operation with a comment.
* `Vec<T>` becomes `List T`; in-place index assignment becomes `List.set`.
* Fallible Rust code is modelled with the `Outcome` type below: `ok`,
  `err` (a returned `Err`), `crash` (a Rust panic: index out of bounds,
  usize subtraction overflow, `unwrap` of `None`), and `diverge`
  (an unbounded loop ran out of fuel; loops of the source that cannot
  terminate are exposed by results that are `diverge` for every fuel).
* Every recursive definition is structural, so that closed instances
  evaluate by `rfl` / `decide` in the kernel.
-/

namespace GzipRepo

/-- Number 2 ^ 32, the modulus of Rust `u32` arithmetic. -/
def U32M : Nat := 4294967296

/-- Number 2 ^ 64, the modulus of Rust `u64` arithmetic. -/
def U64M : Nat := 18446744073709551616

/-- Model of `u8::reverse_bits` from the Rust core library: reverses the
8 bits of a byte. -/
def reverse_bits8 (b : Nat) : Nat :=
  (List.range 8).foldl (fun acc i => (acc <<< 1) ||| ((b >>> i) &&& 1)) 0

/-- Model of `u16::reverse_bits` from the Rust core library: reverses the
16 bits of a 16-bit word. -/
def reverse_bits16 (b : Nat) : Nat :=
  (List.range 16).foldl (fun acc i => (acc <<< 1) ||| ((b >>> i) &&& 1)) 0

/-- Error type `BitVecError` of `src/bits.rs`. -/
inductive BitVecError where
  | outOfBounds : Nat → BitVecError
deriving DecidableEq

/-- Struct `BitVector64` of `src/bits.rs`: bits stored in a vector of
`u64` buffers (`buffer`), with a bit count `len` and a read cursor
`idx`. -/
structure BitVector64 where
  buffer : List Nat
  len : Nat
  idx : Nat
deriving DecidableEq

namespace BitVector64

/-- Model of `BitVector64::new` of `src/bits.rs`. -/
def new : BitVector64 := { buffer := [0], len := 0, idx := 0 }

/-- Model of `BitVector64::push_buffer` of `src/bits.rs`: pushes the `len` least
significant bits of `buf` (read from the most significant of those bits
first) onto the end of the bit vector.  The source computes
`buffer << (64 - len)` in `u64`; the reduction modulo `2 ^ 64` models the
discarding of the shifted-out bits. -/
def push_buffer (bv : BitVector64) (buf : Nat) (len : Nat) :
    Except BitVecError BitVector64 :=
  if len > 64 then .error (.outOfBounds len)
  else
    let bit_idx := bv.len % 64
    let buf_idx := bv.buffer.length - 1
    let shifted_buffer := (buf <<< (64 - len)) % U64M
    if bit_idx + len ≥ 64 then
      let b1 := bv.buffer ++ [0]
      let b2 := b1.set buf_idx ((b1.getD buf_idx 0) ||| (shifted_buffer >>> bit_idx))
      let b3 := b2.set (buf_idx + 1) ((shifted_buffer <<< (64 - bit_idx)) % U64M)
      .ok { buffer := b3, len := bv.len + len, idx := bv.idx }
    else
      let b2 := bv.buffer.set buf_idx
        ((bv.buffer.getD buf_idx 0) ||| (shifted_buffer >>> bit_idx))
      .ok { buffer := b2, len := bv.len + len, idx := bv.idx }

/-- The step of `BitVector64::from_be_bytes`: push one byte, reversed,
through `push_buffer`.  The `.unwrap()` of the source cannot fail because
the pushed length is 8 ≤ 64; the error arm below is dead code. -/
def pushByte (bv : BitVector64) (byte : Nat) : BitVector64 :=
  match push_buffer bv (reverse_bits8 byte) 8 with
  | .ok bv2 => bv2
  | .error _ => bv

/-- Model of `BitVector64::from_be_bytes` of `src/bits.rs`. -/
def from_be_bytes (raw : List Nat) : BitVector64 :=
  raw.foldl pushByte new

/-- The `Iterator::next` implementation for `BitVector64` of
`src/bits.rs`: read the bit at the cursor, advance the cursor.  The
buffer and the length are never modified. -/
def next (bv : BitVector64) : Option Nat × BitVector64 :=
  if bv.idx < bv.len then
    let byte_idx := bv.idx / 64
    let bit_idx := 63 - (bv.idx % 64)
    let current_byte := bv.buffer.getD byte_idx 0
    let bit := (current_byte >>> bit_idx) &&& 1
    (some bit, { bv with idx := bv.idx + 1 })
  else
    (none, bv)

/-- Read up to `n` bits, returning the bits in order together with the
advanced state.  This models the `take(n)`-style consumption of the
iterator in `src/inflate.rs`: when the stream runs out, fewer bits are
returned and no error is raised. -/
def takeBits (bv : BitVector64) : Nat → List Nat × BitVector64
  | 0 => ([], bv)
  | n + 1 =>
    match next bv with
    | (none, bv2) => ([], bv2)
    | (some b, bv2) =>
      let (rest, bv3) := takeBits bv2 n
      (b :: rest, bv3)

end BitVector64

/-! ## Constant tables of `src/prefix.rs` -/

/-- Constant `FIXED_CODE_LENGTHS` of `src/prefix.rs` (RFC 1951 §3.2.6):
8 bits for symbols 0–143, 9 for 144–255, 7 for 256–279, 8 for 280–287. -/
def FIXED_CODE_LENGTHS : List Nat :=
  (List.replicate 144 8 ++ List.replicate 112 9) ++
  (List.replicate 24 7 ++ List.replicate 8 8)

/-- Constant `LENGTH_CODES` of `src/prefix.rs` (the array literal,
written in concatenated chunks). -/
def LENGTH_CODES : List Nat :=
  [257, 258, 259, 260, 261, 262, 263, 264] ++
  [265, 266, 267, 268, 269, 270, 271, 272] ++
  [273, 274, 275, 276, 277, 278, 279, 280] ++
  [281, 282, 283, 284, 285]

/-- Constant `LENGTH_EXTRA_BITS` of `src/prefix.rs`. -/
def LENGTH_EXTRA_BITS : List Nat :=
  [0, 0, 0, 0, 0, 0, 0, 0] ++ [1, 1, 1, 1, 2, 2, 2, 2] ++
  [3, 3, 3, 3, 4, 4, 4, 4] ++ [5, 5, 5, 5, 0]

/-- Constant `LENGTH_BASE` of `src/prefix.rs`. -/
def LENGTH_BASE : List Nat :=
  [3, 4, 5, 6, 7, 8, 9, 10] ++ [11, 13, 15, 17, 19, 23, 27, 31] ++
  [35, 43, 51, 59, 67, 83, 99, 115] ++ [131, 163, 195, 227, 258]

/-- Constant `DISTANCE_CODES` of `src/prefix.rs`. -/
def DISTANCE_CODES : List Nat :=
  [0, 1, 2, 3, 4, 5, 6, 7] ++ [8, 9, 10, 11, 12, 13, 14, 15] ++
  [16, 17, 18, 19, 20, 21, 22, 23] ++ [24, 25, 26, 27, 28, 29]

/-- Constant `DISTANCE_EXTRA_BITS` of `src/prefix.rs`. -/
def DISTANCE_EXTRA_BITS : List Nat :=
  [0, 0, 0, 0, 1, 1, 2, 2] ++ [3, 3, 4, 4, 5, 5, 6, 6] ++
  [7, 7, 8, 8, 9, 9, 10, 10] ++ [11, 11, 12, 12, 13, 13]

/-- Constant `DISTANCE_BASE` of `src/prefix.rs` (the array literal,
written in concatenated chunks). -/
def DISTANCE_BASE : List Nat :=
  [1, 2, 3, 4, 5, 7, 9, 13] ++ [17, 25, 33, 49, 65, 97, 129, 193] ++
  [257, 385, 513, 769, 1025, 1537, 2049, 3073] ++
  [4097, 6145, 8193, 12289, 16385, 24577]

/-- Lookup in a `HashMap` that `src/inflate.rs` builds by zipping a key
table with a value table: find the position of `k` among the keys and
return the value at the same position. -/
def tableGet (keys vals : List Nat) (k : Nat) : Option Nat :=
  match keys.findIdx? (fun x => x = k) with
  | some i => some (vals.getD i 0)
  | none => none

/-! ## Struct `Code` of `src/prefix.rs` -/

/-- Struct `Code` of `src/prefix.rs`: a bit buffer (`u32`), the number of
meaningful low bits (`u8`), and the iteration index (`u8`). -/
structure Code where
  buffer : Nat
  length : Nat
  index : Nat
deriving DecidableEq

namespace Code

/-- Model of `Code::new` of `src/prefix.rs`. -/
def new : Code := { buffer := 0, length := 0, index := 0 }

/-- Model of `Code::from` of `src/prefix.rs`. -/
def from_parts (buffer length : Nat) : Code :=
  { buffer := buffer, length := length, index := 0 }

/-- Model of `Code::push_bit` of `src/prefix.rs` for a binary bit (the only use in
the repository; a non-binary argument is normalised to 1 by the source).
`buffer` is `u32` and `length` is `u8`, hence the two moduli. -/
def push_bit (c : Code) (bit : Nat) : Code :=
  let normalized_bit := if bit = 0 then 0 else 1
  { c with buffer := ((c.buffer <<< 1) ||| normalized_bit) % U32M,
           length := (c.length + 1) % 256 }

/-- The sequence of bits yielded by the `Iterator` implementation for
`Code` in `src/prefix.rs`: the i-th call to `next` (0-based) returns
bit `length - 1 - i` of `buffer`, i.e. the low `length` bits of the
buffer from the most significant of them downward. -/
def bits (c : Code) : List Nat :=
  (List.range c.length).map (fun i => (c.buffer >>> (c.length - 1 - i)) &&& 1)

end Code

/-! ## Struct `Node` and `PrefixTree` of `src/prefix.rs` -/

/-- Struct `Node` of `src/prefix.rs`: an optional leaf value, a sort key
`significance` (`u64`, never set to anything but 0 by this repository's
decode path), the code recorded at the node, and optional children. -/
inductive Node where
  | mk : Option Nat → Nat → Code → Option Node → Option Node → Node

namespace Node

/-- Field accessor `value`. -/
def value : Node → Option Nat
  | .mk v _ _ _ _ => v

/-- Field accessor `significance`. -/
def significance : Node → Nat
  | .mk _ s _ _ _ => s

/-- Field accessor `code`. -/
def code : Node → Code
  | .mk _ _ c _ _ => c

/-- Field accessor `left`. -/
def left : Node → Option Node
  | .mk _ _ _ l _ => l

/-- Field accessor `right`. -/
def right : Node → Option Node
  | .mk _ _ _ _ r => r

/-- Model of `Node::new` of `src/prefix.rs`. -/
def new : Node := .mk none 0 Code.new none none

/-- The child of a node in direction `b` (0 = left, 1 = right); any other
direction selects no child (the source never asks for one: its `walk`
asserts `direction < 2` and its `insert_code` skips non-binary bits). -/
def child (n : Node) (b : Nat) : Option Node :=
  if b = 0 then n.left else if b = 1 then n.right else none

/-- Replace the child of a node in direction `b`. -/
def setChild (n : Node) (b : Nat) (c : Option Node) : Node :=
  match n with
  | .mk v s cd l r =>
    if b = 0 then .mk v s cd c r else if b = 1 then .mk v s cd l c else n

/-- Set the `code` field of a node. -/
def setCode (n : Node) (c : Code) : Node :=
  match n with
  | .mk v s _ l r => .mk v s c l r

/-- Set the `value` field of a node. -/
def setValue (n : Node) (v : Option Nat) : Node :=
  match n with
  | .mk _ s cd l r => .mk v s cd l r

/-- The node reached from `n` by following the directions in `p`
(`none` when a child on the way is missing). -/
def nodeAt (n : Node) : List Nat → Option Node
  | [] => some n
  | b :: p =>
    match n.child b with
    | none => none
    | some c => nodeAt c p

/-- The `value` stored at the node reached by `p`, if that node exists. -/
def valueAt (n : Node) (p : List Nat) : Option Nat :=
  match nodeAt n p with
  | none => none
  | some m => m.value

end Node

/-- Struct `PrefixTree` of `src/prefix.rs`: a root node and the cursor
node `current` of the stateful walk (the source keeps `current` as a
boxed clone of a subtree, which value-copying models directly). -/
structure PrefixTree where
  root : Node
  current : Node

namespace PrefixTree

/-- Model of `PrefixTree::new` of `src/prefix.rs`. -/
def new : PrefixTree := { root := Node.new, current := Node.new }

/-- The loop of `PrefixTree::insert_code` of `src/prefix.rs`: walk the
bits of the code from the root, creating missing children, stamping each
visited child with the code accumulated so far; at the end of the bits,
store the value and the full original code at the final node.  A
non-binary bit is skipped by the source (`_ => {}`); `Code`'s iterator
only ever yields 0 or 1. -/
def insertPath (n : Node) (bits : List Nat) (current_code full : Code)
    (value : Nat) : Node :=
  match bits with
  | [] => (n.setValue (some value)).setCode full
  | b :: rest =>
    if b = 0 ∨ b = 1 then
      let childNode :=
        match n.child b with
        | some c => c
        | none => Node.new
      let cc2 := current_code.push_bit b
      let child2 := childNode.setCode cc2
      n.setChild b (some (insertPath child2 rest cc2 full value))
    else insertPath n rest current_code full value

/-- Model of `PrefixTree::insert_code` of `src/prefix.rs`.  After the insertion
the source resets `current` to a clone of the (new) root. -/
def insert_code (t : PrefixTree) (code : Code) (value : Nat) : PrefixTree :=
  let newRoot := insertPath t.root code.bits Code.new code value
  { root := newRoot, current := newRoot }

/-- Model of `PrefixTree::walk` of `src/prefix.rs`: step to the child in the given
direction; if the child carries a value, return it and reset the cursor
to the root, if the child is internal return `none` and move the cursor,
and if there is no child return `none` and stay put.  The source asserts
`direction < 2`; every call site passes a bit masked with `&&& 1`. -/
def walk (t : PrefixTree) (direction : Nat) : Option Nat × PrefixTree :=
  match t.current.child direction with
  | some v =>
    match v.value with
    | some value => (some value, { t with current := t.root })
    | none => (none, { t with current := v })
  | none => (none, t)

/-- Walk a whole bit sequence, one `walk` per bit, collecting the
returned options. -/
def walkSeq (t : PrefixTree) : List Nat → List (Option Nat) × PrefixTree
  | [] => ([], t)
  | b :: rest =>
    let (r, t2) := walk t b
    let (rs, t3) := walkSeq t2 rest
    (r :: rs, t3)

end PrefixTree

/-! ## Canonical code construction, `PrefixTree::from_lengths` of
`src/prefix.rs`.  The construction is split into named definitions for
its intermediate arrays (`occurances`, `next_code`, `codes`), and
`from_lengths` is their composition, exactly following the source. -/

/-- The `occurances` array of `PrefixTree::from_lengths` after the
counting fold: 256 counters (`u32`, saturating add), indexed by code
length.  Code lengths are `u8` in the source, so every index is in
range. -/
def occurances (code_lengths : List Nat) : List Nat :=
  code_lengths.foldl
    (fun acc idx => acc.set idx (min (acc.getD idx 0 + 1) (U32M - 1)))
    (List.replicate 256 0)

/-- The `occurances` array after the source forces `occurances[0] = 0`. -/
def occurancesZ (code_lengths : List Nat) : List Nat :=
  (occurances code_lengths).set 0 0

/-- Model of `code_lengths.iter().max().unwrap_or(&0)` of the source. -/
def max_length (code_lengths : List Nat) : Nat :=
  code_lengths.foldl max 0

/-- The `for i in 1..=max_length` loop of `PrefixTree::from_lengths`,
carrying the running `code` (`u32`, shift wraps) and the `next_code`
vector. -/
def next_code_st (code_lengths : List Nat) : Nat × List Nat :=
  let occ := occurancesZ code_lengths
  let m := max_length code_lengths
  (List.range m).foldl
    (fun st k =>
      let i := k + 1
      let code := ((st.1 + occ.getD (i - 1) 0) * 2) % U32M
      (code, st.2.set i code))
    (0, List.replicate (m + 1) 0)

/-- The `next_code` vector of `PrefixTree::from_lengths`. -/
def next_code (code_lengths : List Nat) : List Nat :=
  (next_code_st code_lengths).2

/-- The `for j in 0..code_lengths.len()` assignment loop of
`PrefixTree::from_lengths`: each symbol with nonzero length receives the
current `next_code` entry for its length, which is then incremented
(`u32`). -/
def assign_st (code_lengths : List Nat) : List (Option Nat) × List Nat :=
  (List.range code_lengths.length).foldl
    (fun st j =>
      let len := code_lengths.getD j 0
      if len ≠ 0 then
        let c := st.2.getD len 0
        (st.1.set j (some c), st.2.set len ((c + 1) % U32M))
      else st)
    (List.replicate code_lengths.length none, next_code code_lengths)

/-- The `codes` vector of `PrefixTree::from_lengths`. -/
def codes (code_lengths : List Nat) : List (Option Nat) :=
  (assign_st code_lengths).1

/-- Model of `PrefixTree::from_lengths` of `src/prefix.rs`: assign canonical codes
and insert each symbol with a nonzero length into a fresh tree. -/
def PrefixTree.from_lengths (code_lengths : List Nat) : PrefixTree :=
  (codes code_lengths).enum.foldl
    (fun tree ic =>
      match ic.2 with
      | some c =>
        tree.insert_code (Code.from_parts c (code_lengths.getD ic.1 0)) ic.1
      | none => tree)
    PrefixTree.new

/-! ## `src/inflate.rs` -/

/-- Enum `DeflateError` of `src/inflate.rs`. -/
inductive DeflateError where
  | invalidBlockError : String → DeflateError
  | invalidSymbolError : Nat → String → DeflateError
deriving DecidableEq

/-- Result of running a piece of translated Rust code: a returned value,
a returned `Err`, a panic (index out of bounds, integer-subtraction
overflow, failed `unwrap`), or fuel exhaustion of a source loop. -/
inductive Outcome (α : Type) where
  | ok : α → Outcome α
  | err : DeflateError → Outcome α
  | crash : Outcome α
  | diverge : Outcome α
deriving DecidableEq

/-- Sequencing of outcomes: the `?`-operator / statement sequencing of
the source.  An error, panic or divergence propagates. -/
def Outcome.andThen : Outcome α → (α → Outcome β) → Outcome β
  | .ok a, f => f a
  | .err e, _ => .err e
  | .crash, _ => .crash
  | .diverge, _ => .diverge

/-- Assemble bits into a `u16` accumulator: `fold(0u16, |acc, bit|
(acc << 1) | bit)` of the source (the shift discards the top bit). -/
def foldBitsU16 (bits : List Nat) : Nat :=
  bits.foldl (fun acc b => ((acc <<< 1) ||| b) % 65536) 0

/-- Assemble bits into a `u8` accumulator: `fold(0u8, |acc, bit|
(acc << 1) | bit)` of the source (the shift discards the top bit). -/
def foldBitsU8 (bits : List Nat) : Nat :=
  bits.foldl (fun acc b => ((acc <<< 1) ||| b) % 256) 0

/-- Assemble bits into a `usize` accumulator (64-bit). -/
def foldBitsUsize (bits : List Nat) : Nat :=
  bits.foldl (fun acc b => ((acc <<< 1) ||| b) % U64M) 0

/-- The back-reference copy loop `for idx in start_idx..end_idx
{ output.push(output[idx]) }` of `src/inflate.rs`, copying `n` bytes
one at a time (overlap allowed); `none` models the panic of an
out-of-bounds `output[idx]`. -/
def copyFrom (output : List Nat) (idx : Nat) : Nat → Option (List Nat)
  | 0 => some output
  | n + 1 =>
    match output.get? idx with
    | some v => copyFrom (output ++ [v]) (idx + 1) n
    | none => none

/-- Struct `DeflateData` of `src/inflate.rs`. -/
structure DeflateData where
  compressed : List Nat
  decompressed : List Nat
  bitstream : BitVector64
  finished : Bool
deriving DecidableEq

/-- Model of `DeflateData::build` of `src/inflate.rs`. -/
def DeflateData.build (compressed : List Nat) : DeflateData :=
  { compressed := compressed,
    decompressed := [],
    bitstream := BitVector64.from_be_bytes compressed,
    finished := false }

/-- Model of `DeflateData::block_type_0` of `src/inflate.rs`: skip 5 bits, read
`LEN` and `NLEN` (16 bits each, assembled most-significant-first and then
bit-reversed), check the complement, and copy `LEN` bytes straight out of
`compressed` starting at the byte holding the current cursor.  The
bitstream cursor is not advanced past the payload.  An out-of-range
slice `compressed[byte_idx..len + byte_idx]` panics. -/
def block_type_0 (d : DeflateData) : Outcome DeflateData :=
  let s1 := d.bitstream.takeBits 5
  let r2 := s1.2.takeBits 16
  let len := reverse_bits16 (foldBitsU16 r2.1)
  let r3 := r2.2.takeBits 16
  let nlen := reverse_bits16 (foldBitsU16 r3.1)
  if len ≠ 65535 - nlen then
    .err (.invalidBlockError
      r"BTYPE is 0, but NLEN is not the bitwise complement to LEN.")
  else
    let byte_idx := r3.2.idx / 8
    if len + byte_idx ≤ d.compressed.length then
      .ok { d with
            bitstream := r3.2,
            decompressed :=
              d.decompressed ++ (d.compressed.drop byte_idx).take len }
    else .crash

/-- The literal/length loop of `DeflateData::block_type_1` of
`src/inflate.rs`.  One fuel unit per loop iteration (one bit read at the
head of each iteration); extra-bit reads inside an iteration consume no
fuel.  Note the source behaviours carried over faithfully: the loop ends
without error when the stream runs dry; length extra bits are assembled
most-significant-first with no bit-reversal; the distance symbol is 5
raw bits; distance extra bits are assembled in a `u8` and bit-reversed;
a distance reaching before the start of the output panics
(`output.len() - _distance` underflows). -/
def llLoop1 : Nat → BitVector64 → PrefixTree → List Nat →
    Outcome (List Nat × BitVector64 × PrefixTree)
  | 0, _, _, _ => .diverge
  | fuel + 1, bs, tree, output =>
    match BitVector64.next bs with
    | (none, bs2) => .ok (output, bs2, tree)
    | (some bit, bs2) =>
      match PrefixTree.walk tree bit with
      | (none, tree2) => llLoop1 fuel bs2 tree2 output
      | (some value, tree2) =>
        if value < 256 then llLoop1 fuel bs2 tree2 (output ++ [value])
        else if 257 ≤ value ∧ value ≤ 285 then
          match tableGet LENGTH_CODES LENGTH_BASE value,
              tableGet LENGTH_CODES LENGTH_EXTRA_BITS value with
          | some base, some len_extra =>
            let l1 := bs2.takeBits len_extra
            let additional_length := foldBitsU8 l1.1
            let length := (base + additional_length) % 65536
            let d1 := l1.2.takeBits 5
            let dsym := foldBitsUsize d1.1
            match tableGet DISTANCE_CODES DISTANCE_EXTRA_BITS dsym,
                tableGet DISTANCE_CODES DISTANCE_BASE dsym with
            | some dist_extra, some dist_base =>
              let e1 := d1.2.takeBits dist_extra
              let additional_distance := foldBitsU8 e1.1
              let distance :=
                if dist_extra > 0 then
                  (dist_base +
                    (reverse_bits16 additional_distance >>> (16 - dist_extra)))
                    % 65536
                else dist_base
              if distance > output.length then .crash
              else
                match copyFrom output (output.length - distance) length with
                | some output2 => llLoop1 fuel e1.2 tree2 output2
                | none => .crash
            | _, _ =>
              .err (.invalidSymbolError dsym
                r"Failed to get distance code base and extra bits, invalid distance code symbol.")
          | _, _ => .crash
        else if value = 256 then .ok (output, bs2, tree2)
        else llLoop1 fuel bs2 tree2 output

/-- Model of `DeflateData::block_type_1` of `src/inflate.rs`: build the fixed
tree, run the literal/length loop, push the output (as bytes) onto
`decompressed`. -/
def block_type_1 (fuel : Nat) (d : DeflateData) : Outcome DeflateData :=
  let fixed_tree := PrefixTree.from_lengths FIXED_CODE_LENGTHS
  (llLoop1 fuel d.bitstream fixed_tree []).andThen fun out =>
    .ok { d with
          bitstream := out.2.1,
          decompressed := d.decompressed ++ out.1.map (fun x => x % 256) }

/-- Group a bit list into chunks of 3 (`cl_len_vec.chunks(3)`). -/
def chunks3 : List Nat → List (List Nat)
  | [] => []
  | [a] => [[a]]
  | [a, b] => [[a, b]]
  | a :: b :: c :: rest => [a, b, c] :: chunks3 rest

/-- Value of one chunk: `len.iter().rev().fold(0u8, |acc, bit|
(acc << 1) | *bit)` of the source. -/
def chunkVal (c : List Nat) : Nat := foldBitsU8 c.reverse

/-- The `match i` table filling `cl_lengths_sorted` in
`DeflateData::block_type_2`: entry `i` of the sorted array takes the
entry of `cl_lengths` at the source position given below (the fallback
arm of the source stores the literal 0). -/
def cl_sorted_val (cl : List Nat) (i : Nat) : Nat :=
  match i with
  | 16 => cl.getD 0 0
  | 17 => cl.getD 1 0
  | 18 => cl.getD 2 0
  | 0 => cl.getD 3 0
  | 8 => cl.getD 4 0
  | 7 => cl.getD 5 0
  | 9 => cl.getD 6 0
  | 6 => cl.getD 7 0
  | 10 => cl.getD 8 0
  | 5 => cl.getD 9 0
  | 11 => cl.getD 10 0
  | 4 => cl.getD 11 0
  | 12 => cl.getD 12 0
  | 3 => cl.getD 13 0
  | 13 => cl.getD 14 0
  | 2 => cl.getD 15 0
  | 14 => cl.getD 16 0
  | 1 => cl.getD 17 0
  | 15 => cl.getD 18 0
  | _ => 0

/-- The code-length decoding loop (`while code_lengths.len() < hlit +
257 + hdist + 1`) of `DeflateData::block_type_2`.  One fuel unit per
iteration.  When the bit stream is exhausted an iteration reads nothing
and changes nothing — the source loop then spins forever, which surfaces
here as `diverge` for every fuel. -/
def clLoop : Nat → BitVector64 → PrefixTree → List Nat → Nat →
    Outcome (List Nat × BitVector64 × PrefixTree)
  | 0, bs, tree, cls, target =>
    if cls.length < target then .diverge else .ok (cls, bs, tree)
  | fuel + 1, bs, tree, cls, target =>
    if cls.length < target then
      match BitVector64.next bs with
      | (none, bs2) => clLoop fuel bs2 tree cls target
      | (some bit, bs2) =>
        match PrefixTree.walk tree bit with
        | (none, tree2) => clLoop fuel bs2 tree2 cls target
        | (some symbol, tree2) =>
          if symbol < 16 then
            clLoop fuel bs2 tree2 (cls ++ [symbol % 256]) target
          else if symbol ≤ 18 then
            let ne_base : Nat × Nat :=
              if symbol = 16 then (2, 3) else if symbol = 17 then (3, 3)
              else (7, 11)
            let e1 := bs2.takeBits ne_base.1
            let extra := reverse_bits8 (foldBitsU8 e1.1) >>> (8 - ne_base.1)
            if symbol = 16 then
              match cls.getLast? with
              | some lastLen =>
                clLoop fuel e1.2 tree2
                  (cls ++ List.replicate (ne_base.2 + extra) lastLen) target
              | none => .crash
            else
              clLoop fuel e1.2 tree2
                (cls ++ List.replicate (ne_base.2 + extra) 0) target
          else clLoop fuel bs2 tree2 cls target
    else .ok (cls, bs, tree)

/-- The `loop { … }` reading a distance symbol through the distance tree
in `DeflateData::block_type_2`.  When the stream is exhausted the source
loop spins forever (`next` keeps returning `None`); here that is
`diverge` for every fuel. -/
def distLoop : Nat → BitVector64 → PrefixTree →
    Outcome (Nat × BitVector64 × PrefixTree)
  | 0, _, _ => .diverge
  | fuel + 1, bs, dtree =>
    match BitVector64.next bs with
    | (none, bs2) => distLoop fuel bs2 dtree
    | (some bit, bs2) =>
      match PrefixTree.walk dtree bit with
      | (some dist, dtree2) => .ok (dist, bs2, dtree2)
      | (none, dtree2) => distLoop fuel bs2 dtree2

/-- The literal/length loop of `DeflateData::block_type_2`.  Same shape
as `llLoop1` except that the length-code test of the source is the
half-open `257..285` (285 falls through to nothing) and the distance
symbol is decoded through the distance tree via `distLoop`. -/
def llLoop2 : Nat → BitVector64 → PrefixTree → PrefixTree → List Nat →
    Outcome (List Nat × BitVector64)
  | 0, _, _, _, _ => .diverge
  | fuel + 1, bs, lltree, dtree, output =>
    match BitVector64.next bs with
    | (none, bs2) => .ok (output, bs2)
    | (some bit, bs2) =>
      match PrefixTree.walk lltree bit with
      | (none, lltree2) => llLoop2 fuel bs2 lltree2 dtree output
      | (some sym, lltree2) =>
        if sym < 256 then llLoop2 fuel bs2 lltree2 dtree (output ++ [sym])
        else if 257 ≤ sym ∧ sym < 285 then
          match tableGet LENGTH_CODES LENGTH_BASE sym,
              tableGet LENGTH_CODES LENGTH_EXTRA_BITS sym with
          | some base, some len_extra =>
            let l1 := bs2.takeBits len_extra
            let additional_length := foldBitsU8 l1.1
            let length := (base + additional_length) % 65536
            (distLoop fuel l1.2 dtree).andThen fun dr =>
              match tableGet DISTANCE_CODES DISTANCE_EXTRA_BITS dr.1,
                  tableGet DISTANCE_CODES DISTANCE_BASE dr.1 with
              | some dist_extra, some dist_base =>
                let e1 := dr.2.1.takeBits dist_extra
                let additional_distance := foldBitsU8 e1.1
                let distance :=
                  if dist_extra > 0 then
                    (dist_base +
                      (reverse_bits16 additional_distance >>> (16 - dist_extra)))
                      % 65536
                  else dist_base
                if distance > output.length then .crash
                else
                  match copyFrom output (output.length - distance) length with
                  | some output2 => llLoop2 fuel e1.2 lltree2 dr.2.2 output2
                  | none => .crash
              | _, _ =>
                .err (.invalidSymbolError dr.1
                  r"Failed to get distance code base and extra bits, invalid distance code symbol.")
          | _, _ => .crash
        else if sym = 256 then .ok (output, bs2)
        else llLoop2 fuel bs2 lltree2 dtree output

/-- Tail of `DeflateData::block_type_2` after the code-length vector has
been decoded: split it at `hlit + 257`, build the two trees, run the
literal/length loop, append the output bytes. -/
def bt2_after (fuel : Nat) (d : DeflateData) (hlit : Nat)
    (r : List Nat × BitVector64 × PrefixTree) : Outcome DeflateData :=
  let code_lengths := r.1
  let ll_tree := PrefixTree.from_lengths (code_lengths.take (hlit + 257))
  let dist_tree := PrefixTree.from_lengths (code_lengths.drop (hlit + 257))
  (llLoop2 fuel r.2.1 ll_tree dist_tree []).andThen fun out =>
    .ok { d with
          bitstream := out.2,
          decompressed := d.decompressed ++ out.1.map (fun x => x % 256) }

/-- Model of `DeflateData::block_type_2` of `src/inflate.rs`: read `HLIT`,
`HDIST`, `HCLEN`, the permuted code-length code lengths, build the
code-length tree, decode the code-length vector (`clLoop`), then decode
the block body (`bt2_after`). -/
def block_type_2 (fuel : Nat) (d : DeflateData) : Outcome DeflateData :=
  let h1 := d.bitstream.takeBits 5
  let hlit := reverse_bits16 (foldBitsU16 h1.1) >>> 11
  let h2 := h1.2.takeBits 5
  let hdist := reverse_bits8 (foldBitsU8 h2.1) >>> 3
  let h3 := h2.2.takeBits 4
  let hclen := reverse_bits8 (foldBitsU8 h3.1) >>> 4
  let c1 := h3.2.takeBits ((hclen + 4) * 3)
  let cl_lengths :=
    (List.range 19).map (fun i => ((chunks3 c1.1).map chunkVal).getD i 0)
  let cl_lengths_sorted := (List.range 19).map (cl_sorted_val cl_lengths)
  let code_length_tree := PrefixTree.from_lengths cl_lengths_sorted
  (clLoop fuel c1.2 code_length_tree [] (hlit + 257 + hdist + 1)).andThen
    (bt2_after fuel d hlit)

/-- The `while !self.finished` loop of `DeflateData::decompress` of
`src/inflate.rs`: read the 3 header bits, set `finished` from `BFINAL`,
dispatch on `BTYPE`.  One fuel unit per block. -/
def decompressLoop : Nat → DeflateData → Outcome DeflateData
  | 0, d => if d.finished then .ok d else .diverge
  | fuel + 1, d =>
    if d.finished then .ok d
    else
      match BitVector64.next d.bitstream with
      | (none, _) =>
        .err (.invalidBlockError
          r"Block ran out of bits before a header was specified.")
      | (some h0, bs1) =>
        match BitVector64.next bs1 with
        | (none, _) =>
          .err (.invalidBlockError
            r"Block ran out of bits before a header was specified.")
        | (some h1, bs2) =>
          match BitVector64.next bs2 with
          | (none, _) =>
            .err (.invalidBlockError
              r"Block ran out of bits before a header was specified.")
          | (some h2, bs3) =>
            let d2 := { d with bitstream := bs3, finished := h0 == 1 }
            match h1, h2 with
            | 0, 0 => (block_type_0 d2).andThen (decompressLoop fuel)
            | 1, 0 => (block_type_1 fuel d2).andThen (decompressLoop fuel)
            | 0, 1 => (block_type_2 fuel d2).andThen (decompressLoop fuel)
            | _, _ => .err (.invalidBlockError r"Invalid BTYPE.")

/-- Model of `DeflateData::decompress` of `src/inflate.rs`: run the block loop,
then return `Ok(self.decompressed.clone())`. -/
def decompress (fuel : Nat) (d : DeflateData) : Outcome (List Nat) :=
  (decompressLoop fuel d).andThen fun d2 => .ok d2.decompressed

/-! ## Specification-side helper definitions used by the theorems -/

/-- The bit at stream position `i` of a `u64` buffer vector, exactly the
expression read by `BitVector64`'s iterator. -/
def bitAt (bufs : List Nat) (i : Nat) : Nat :=
  ((bufs.getD (i / 64) 0) >>> (63 - i % 64)) &&& 1

/-- Bit `i mod 8` of byte `i div 8` of a byte list: the DEFLATE bit
order of RFC 1951 §3.1.1 (least significant bit of each byte first). -/
def byteBit (bytes : List Nat) (i : Nat) : Nat :=
  ((bytes.getD (i / 8) 0) >>> (i % 8)) &&& 1

/-- The state of a `BitVector64` after `i` calls of the iterator. -/
def nextIter (bv : BitVector64) : Nat → BitVector64
  | 0 => bv
  | n + 1 => (BitVector64.next (nextIter bv n)).2

/-- The `i`-th element (0-based) produced by iterating a
`BitVector64`. -/
def iterNth (bv : BitVector64) (i : Nat) : Option Nat :=
  (BitVector64.next (nextIter bv i)).1

/-- Well-formedness of the buffer of a `BitVector64` built from `bytes`:
the length bookkeeping of `from_be_bytes`, every stored bit below `len`
equal to the corresponding source bit in DEFLATE order, and every bit
from `len` on still zero. -/
def GoodBuf (bytes : List Nat) (bv : BitVector64) : Prop :=
  bv.idx = 0 ∧
  bv.len = 8 * bytes.length ∧
  bv.buffer.length = bv.len / 64 + 1 ∧
  (∀ i, i < bv.len → bitAt bv.buffer i = byteBit bytes i) ∧
  (∀ i, bv.len ≤ i → bitAt bv.buffer i = 0)

/-- Closed form of the running `code` variable of the
`for i in 1..=max_length` loop of `PrefixTree::from_lengths`. -/
def ncVal (occ : List Nat) : Nat → Nat
  | 0 => 0
  | k + 1 => ((ncVal occ k + occ.getD k 0) * 2) % U32M

/-- Number of entries equal to `n` among the first `s` entries of `L`:
how often `next_code[n]` has been incremented before symbol `s` is
assigned its code. -/
def cnt (L : List Nat) (n s : Nat) : Nat :=
  ((L.take s).filter (fun x => x = n)).length

/-- Every bit of the list is 0 or 1. -/
def binaryBits (bs : List Nat) : Prop := ∀ b ∈ bs, b ≤ 1

/-- The root-to-leaf path that `from_lengths` carves for symbol `s` when
it has been assigned code value `c`: the `L[s]` bits of `c`, most
significant first, as yielded by `Code`'s iterator. -/
def assignedPath (L : List Nat) (s c : Nat) : List Nat :=
  Code.bits (Code.from_parts c (L.getD s 0))

/-- Validity of a code-length vector for round-trip decoding: no
assigned code's bit path is a prefix of (or equal to) another symbol's
bit path.  Canonical code sets respecting the Kraft inequality satisfy
this; oversubscribed sets such as `[1, 1, 1]` do not. -/
def goodLengths (L : List Nat) : Bool :=
  (List.range L.length).all fun i =>
    (List.range L.length).all fun j =>
      i == j ||
        match (codes L).getD i none, (codes L).getD j none with
        | some ci, some cj =>
          !(List.isPrefixOf (assignedPath L i ci) (assignedPath L j cj))
        | _, _ => true

/-- Generalisation of the `next_code` loop of `from_lengths` to a prefix
of `j` iterations, for the loop-invariant proof. -/
def ncFold (occ : List Nat) (m j : Nat) : Nat × List Nat :=
  (List.range j).foldl
    (fun st k =>
      let i := k + 1
      let code := ((st.1 + occ.getD (i - 1) 0) * 2) % U32M
      (code, st.2.set i code))
    (0, List.replicate (m + 1) 0)

/-- Generalisation of the code-assignment loop of `from_lengths` to a
prefix of `s` symbols, for the loop-invariant proof. -/
def assignFold (L : List Nat) (nc0 : List Nat) (s : Nat) :
    List (Option Nat) × List Nat :=
  (List.range s).foldl
    (fun st j =>
      let len := L.getD j 0
      if len ≠ 0 then
        let c := st.2.getD len 0
        (st.1.set j (some c), st.2.set len ((c + 1) % U32M))
      else st)
    (List.replicate L.length none, nc0)


/-- The insertion step of `from_lengths`: insert symbol `ic.1` when it
was assigned a code. -/
def insStep (code_lengths : List Nat) (tree : PrefixTree)
    (ic : Nat × Option Nat) : PrefixTree :=
  match ic.2 with
  | some c =>
    tree.insert_code (Code.from_parts c (code_lengths.getD ic.1 0)) ic.1
  | none => tree


/-! ## Theorems -/

/-- Iterating an exhausted bit stream yields nothing and does not change
the state (the source returns `None` whenever `idx ≥ len`). -/
theorem next_exhausted (bs : BitVector64) (h : bs.len ≤ bs.idx) :
    BitVector64.next bs = (none, bs) := by
  unfold BitVector64.next
  simp [Nat.not_lt.mpr h]

/-- When the bit stream is exhausted and the decoded code-length vector
is still short of its target, the code-length loop of `block_type_2`
makes no progress: it diverges at every fuel. -/
theorem clLoop_stuck (fuel : Nat) (bs : BitVector64) (tree : PrefixTree)
    (cls : List Nat) (target : Nat) (h : bs.len ≤ bs.idx)
    (h2 : cls.length < target) :
    clLoop fuel bs tree cls target = .diverge := by
  induction fuel with
  | zero => simp [clLoop, h2]
  | succ f ih => simp [clLoop, h2, next_exhausted bs h, ih]

/-- C1: for the stored-block input `BFINAL=1, BTYPE=0, LEN=0x000B,
NLEN=0xFFF4` followed by the 11 payload bytes of the ASCII string
involved, `DeflateData::decompress` returns `Ok` with exactly those 11
bytes, for every sufficient fuel. -/
theorem c1_stored_block_lorem :
    ∀ fuel : Nat,
      decompress (fuel + 2) (DeflateData.build
        [0x01, 0x0B, 0x00, 0xF4, 0xFF,
         0x4C, 0x6F, 0x72, 0x65, 0x6D, 0x20, 0x69, 0x70, 0x73, 0x75, 0x6D]) =
      .ok [0x4C, 0x6F, 0x72, 0x65, 0x6D, 0x20, 0x69, 0x70, 0x73, 0x75, 0x6D] :=
  fun _ => rfl

set_option maxRecDepth 1000000 in
/-- C2: evaluation of the code at the failing input.  A fixed-Huffman
block emits the literals `A`, `B`, `C`, then length symbol 269 (base 19,
2 extra bits) with extra-bit stream `1, 0`, then distance symbol 2
(distance 3), then end-of-block.  The source assembles the two length
extra bits most-significant-first, getting the addend 2 and a copy of
`19 + 2 = 21` bytes (total output 24 bytes); the claimed LSB-first rule
would give the addend 1 and a copy of 20 bytes (total 23). -/
theorem c2_length_extra_msb_first :
    (∀ fuel : Nat,
      decompress (fuel + 50) (DeflateData.build
        [0x73, 0x74, 0x72, 0xC6, 0x86, 0x00]) =
      .ok [65, 66, 67, 65, 66, 67, 65, 66, 67, 65, 66, 67,
           65, 66, 67, 65, 66, 67, 65, 66, 67, 65, 66, 67]) ∧
    ([65, 66, 67, 65, 66, 67, 65, 66, 67, 65, 66, 67,
      65, 66, 67, 65, 66, 67, 65, 66, 67, 65, 66, 67] : List Nat).length ≠
      3 + (19 + 1) :=
  ⟨fun _ => rfl, by decide⟩

set_option maxRecDepth 1000000 in
/-- C5: evaluation of the code at the failing input.  A fixed-Huffman
block whose first symbol is 286 (8-bit fixed code `11000110`), followed
by end-of-block.  The claim requires a CorruptStream-style error for
`S > 285`; the source silently ignores the symbol and returns `Ok`
with an empty output. -/
theorem c5_symbol_286_ignored :
    ∀ fuel : Nat,
      decompress (fuel + 20) (DeflateData.build [0x1B, 0x03, 0x00]) =
      .ok [] :=
  fun _ => rfl

set_option maxRecDepth 1000000 in
/-- C6: evaluation of the code at the failing input.  A fixed-Huffman
block whose first symbol is the length symbol 257 (length 3), followed
by the 5-bit distance symbol 0 (distance 1), while the output buffer is
still empty.  The claim requires a CorruptStream-style error for a
distance exceeding the bytes already written; the source panics (the
`usize` subtraction `output.len() - _distance` underflows). -/
theorem c6_distance_beyond_start_panics :
    ∀ fuel : Nat,
      decompress (fuel + 20) (DeflateData.build [0x03, 0x02]) = .crash :=
  fun _ => rfl

/-- C3: evaluation of the code at the failing input, plus the cursor
positions.  The input is a non-final stored block (`LEN=1`, payload byte
`0x06`) followed by a final stored block (`LEN=0`).  `block_type_0`
leaves the cursor at bit 40 — just after `NLEN`, inside the stored
payload — although the next block's header starts at bit
`8 * (5 + LEN) = 48`; the following loop iteration therefore reads the
payload byte `0x06` as a block header and fails with the invalid-BTYPE
error instead of decoding the second block. -/
theorem c3_stored_block_cursor_not_advanced :
    (∀ fuel : Nat,
      decompress (fuel + 2) (DeflateData.build
        [0x00, 0x01, 0x00, 0xFE, 0xFF, 0x06, 0x01, 0x00, 0x00, 0xFF, 0xFF]) =
      .err (.invalidBlockError r"Invalid BTYPE.")) ∧
    ((block_type_0
        { DeflateData.build
            [0x00, 0x01, 0x00, 0xFE, 0xFF, 0x06, 0x01, 0x00, 0x00, 0xFF, 0xFF]
          with
          bitstream :=
            { (DeflateData.build
                [0x00, 0x01, 0x00, 0xFE, 0xFF, 0x06, 0x01, 0x00, 0x00, 0xFF, 0xFF]).bitstream
              with idx := 3 } }).andThen
      (fun d2 => .ok d2.bitstream.idx)) = .ok 40 ∧
    (40 : Nat) ≠ 8 * (5 + 1) :=
  ⟨fun _ => rfl, by decide, by decide⟩

/-- C4: the claim fails on the code.  On the one-byte input `0x04`
(`BFINAL=0`, `BTYPE=2`, then the stream ends inside the dynamic block
header), the code-length loop of `block_type_2` spins forever reading
`None` from the exhausted stream; `decompress` diverges at every
fuel instead of returning an UnexpectedEnd-style error. -/
theorem c4_truncated_dynamic_block_diverges :
    ∀ fuel : Nat, decompress fuel (DeflateData.build [0x04]) = .diverge := by
  intro fuel
  match fuel with
  | 0 => rfl
  | f + 1 =>
    have h : clLoop f ⟨[2305843009213693952], 8, 8⟩ PrefixTree.new [] 258 =
        .diverge :=
      clLoop_stuck f _ _ _ _ (by decide) (by decide)
    have e : decompress (f + 1) (DeflateData.build [4]) =
        (((clLoop f ⟨[2305843009213693952], 8, 8⟩ PrefixTree.new [] 258).andThen
          (bt2_after f ⟨[4], [], ⟨[2305843009213693952], 8, 3⟩, false⟩ 0)).andThen
          (decompressLoop f)).andThen (fun d3 => .ok d3.decompressed) := rfl
    rw [e, h]
    rfl

/-- C10 (counterexample): in the tree built from the length vector
`[1]`, the only code in the tree is the single-bit path `[0]` (symbol 0)
— yet walking the two-bit sequence `[0, 1]`, which is not a code in the
tree, yields the symbol 0 on its first step, because the walker decodes
the prefix `[0]` and resets to the root. -/
theorem c10_noncode_sequence_yields_symbol :
    codes [1] = [some 0] ∧
    assignedPath [1] 0 0 = [0] ∧
    [0, 1] ≠ assignedPath [1] 0 0 ∧
    (PrefixTree.walkSeq (PrefixTree.from_lengths [1]) [0, 1]).1 =
      [some 0, none] ∧
    some 0 ∈ (PrefixTree.walkSeq (PrefixTree.from_lengths [1]) [0, 1]).1 := by
  refine ⟨by decide, by decide, by decide, ?_, ?_⟩
  · rfl
  · show some 0 ∈ [some 0, none]
    decide

/-- C10 (amended): `PrefixTree::walk` is total for the directions 0 and
1: when the current node has no child in the walked direction it returns
`None` and leaves the walker at the same node — it never moves past a
missing branch.  (A bit sequence that is not itself a code can still
yield a symbol when a prefix of it is a code, since the walker resets to
the root after every decoded symbol.) -/
theorem c10_walk_total_missing_child (t : PrefixTree) (b : Nat)
    (hb : b < 2) (h : t.current.child b = none) :
    PrefixTree.walk t b = (none, t) := by
  unfold PrefixTree.walk
  rw [h]

/-- Witness for the amended C10 at a concrete tree: the root of the tree
built from `[1]` has no right child, and walking 1 returns `None` and
keeps the tree unchanged. -/
theorem c10_walk_total_missing_child_witness :
    (1 : Nat) < 2 ∧
    (PrefixTree.from_lengths [1]).current.child 1 = none ∧
    PrefixTree.walk (PrefixTree.from_lengths [1]) 1 =
      (none, PrefixTree.from_lengths [1]) :=
  ⟨by decide, rfl,
    c10_walk_total_missing_child (PrefixTree.from_lengths [1]) 1
      (by decide) rfl⟩

theorem getD_set_self {α : Type} (l : List α) (i : Nat) (x d : α)
    (h : i < l.length) : (l.set i x).getD i d = x := by
  simp [List.getD_eq_getElem?_getD, List.getElem?_set_self h]

theorem getD_set_ne {α : Type} (l : List α) (i j : Nat) (x d : α)
    (h : i ≠ j) : (l.set i x).getD j d = l.getD j d := by
  simp [List.getD_eq_getElem?_getD, List.getElem?_set_ne h]

theorem shiftRight_and_one (x n : Nat) :
    (x >>> n) &&& 1 = if x.testBit n then 1 else 0 := by
  simp only [Nat.testBit, Nat.and_one_is_mod, Nat.one_and_eq_mod_two]
  rcases Nat.mod_two_eq_zero_or_one (x >>> n) with h | h <;> simp [h]

theorem bitAt_eq (B : List Nat) (i : Nat) :
    bitAt B i = if (B.getD (i / 64) 0).testBit (63 - i % 64) then 1 else 0 :=
  shiftRight_and_one _ _

theorem byteBit_eq (bytes : List Nat) (i : Nat) :
    byteBit bytes i =
      if (bytes.getD (i / 8) 0).testBit (i % 8) then 1 else 0 :=
  shiftRight_and_one _ _

theorem foldl_bits_lt (b : Nat) (l : List Nat) :
    ∀ (acc m : Nat), acc < 2 ^ m →
      l.foldl (fun acc i => (acc <<< 1) ||| ((b >>> i) &&& 1)) acc <
        2 ^ (m + l.length) := by
  induction l with
  | nil => intro acc m h; simpa using h
  | cons x xs ih =>
    intro acc m h
    have h1 : (acc <<< 1) ||| ((b >>> x) &&& 1) < 2 ^ (m + 1) := by
      apply Nat.or_lt_two_pow (Nat.shiftLeft_lt h)
      have h2 : (b >>> x) &&& 1 ≤ 1 := by
        simp only [Nat.and_one_is_mod]
        omega
      calc (b >>> x) &&& 1 ≤ 1 := h2
        _ < 2 ^ (m + 1) := Nat.one_lt_two_pow (by omega)
    have h3 := ih _ _ h1
    have h4 : m + 1 + xs.length = m + (x :: xs).length := by
      simp
      omega
    rw [h4] at h3
    exact h3

theorem rev8_lt (b : Nat) : reverse_bits8 b < 256 := by
  have h := foldl_bits_lt b (List.range 8) 0 0 (by norm_num)
  unfold reverse_bits8
  simpa only [List.length_range, Nat.zero_add,
    show (2 : Nat) ^ 8 = 256 from rfl] using h

set_option maxRecDepth 40000 in
theorem rev8_testBit :
    ∀ b, b < 256 → ∀ r, r < 8 →
      (reverse_bits8 b).testBit (7 - r) = b.testBit r := by
  decide



theorem bitAt_set (B : List Nat) (q w i : Nat) (hq : q < B.length) :
    bitAt (B.set q w) i =
      if i / 64 = q then (w >>> (63 - i % 64)) &&& 1 else bitAt B i := by
  unfold bitAt
  by_cases h : i / 64 = q
  · subst h
    rw [getD_set_self _ _ _ _ hq]
    simp
  · rw [getD_set_ne _ _ _ _ _ (fun hh => h hh.symm)]
    simp [h]

theorem bitAt_append_zero (B : List Nat) (i : Nat) :
    bitAt (B ++ [0]) i = if i / 64 < B.length then bitAt B i else 0 := by
  unfold bitAt
  rcases lt_trichotomy (i / 64) B.length with h | h | h
  · rw [List.getD_append _ _ _ _ h]
    simp [h]
  · rw [List.getD_append_right _ _ _ _ (le_of_eq h.symm), h]
    simp [Nat.lt_irrefl]
  · rw [List.getD_append_right _ _ _ _ (le_of_lt h)]
    have : ([0] : List Nat).getD (i / 64 - B.length) 0 = 0 := by
      rcases Nat.lt_or_ge (i / 64 - B.length) 1 with hh | hh
      · interval_cases h : (i / 64 - B.length)
        rfl
      · exact List.getD_eq_default _ _ (by simpa using hh)
    rw [this]
    simp [Nat.not_lt_of_lt h, Nat.zero_shiftRight]

theorem shift_combine (v b : Nat) (hv : v < 256) (hb : b ≤ 56) :
    ((v <<< 56) % U64M) >>> b = v <<< (56 - b) := by
  have h1 : v <<< 56 = v * 2 ^ 56 := Nat.shiftLeft_eq v 56
  have h2 : v * 2 ^ 56 < U64M := by
    show v * 2 ^ 56 < 18446744073709551616
    calc v * 2 ^ 56 < 256 * 2 ^ 56 := by
          have := Nat.mul_lt_mul_of_lt_of_le hv (le_refl (2 ^ 56)) (by norm_num)
          simpa using this
      _ = 18446744073709551616 := by norm_num
  rw [h1, Nat.mod_eq_of_lt h2, Nat.shiftRight_eq_div_pow, Nat.shiftLeft_eq,
    Nat.mul_div_assoc v (Nat.pow_dvd_pow 2 hb), Nat.pow_div hb (by norm_num)]

theorem shifted_top_zero (v : Nat) (hv : v < 256) :
    (((v <<< 56) % U64M) <<< 8) % U64M = 0 := by
  have h1 : v <<< 56 = v * 2 ^ 56 := Nat.shiftLeft_eq v 56
  have h2 : v * 2 ^ 56 < U64M := by
    show v * 2 ^ 56 < 18446744073709551616
    calc v * 2 ^ 56 < 256 * 2 ^ 56 := by
          have := Nat.mul_lt_mul_of_lt_of_le hv (le_refl (2 ^ 56)) (by norm_num)
          simpa using this
      _ = 18446744073709551616 := by norm_num
  rw [h1, Nat.mod_eq_of_lt h2, Nat.shiftLeft_eq]
  show v * 2 ^ 56 * 2 ^ 8 % U64M = 0
  have h3 : v * 2 ^ 56 * 2 ^ 8 = v * U64M := by
    show v * 2 ^ 56 * 2 ^ 8 = v * 18446744073709551616
    rw [Nat.mul_assoc]
    norm_num
  rw [h3]
  exact Nat.mul_mod_left v U64M



theorem if_testBit_eq_zero {w : Nat} {j : Nat}
    (h : (if w.testBit j then 1 else 0) = 0) : w.testBit j = false := by
  by_cases hc : w.testBit j
  · simp [hc] at h
  · exact Bool.eq_false_iff.mpr hc

theorem goodBuf_pushByte (bytes : List Nat) (bv : BitVector64) (b : Nat)
    (hb : b < 256) (inv : GoodBuf bytes bv) :
    GoodBuf (bytes ++ [b]) (BitVector64.pushByte bv b) := by
  obtain ⟨hidx, hlen, hblen, hbits, htrail⟩ := inv
  have hv : reverse_bits8 b < 256 := rev8_lt b
  set v := reverse_bits8 b with hvdef
  have hQ : bv.buffer.length - 1 = bv.len / 64 := by omega
  have hQlt : bv.buffer.length - 1 < bv.buffer.length := by omega
  have hL8 : bv.len % 8 = 0 := by omega
  unfold BitVector64.pushByte BitVector64.push_buffer
  rw [if_neg (by norm_num : ¬ (8 : Nat) > 64)]
  by_cases h64 : bv.len % 64 + 8 ≥ 64
  · -- the byte completes a u64: a fresh zero word is appended
    have h56 : bv.len % 64 = 56 := by omega
    simp only [if_pos h64]
    have hgetap : (bv.buffer ++ [0]).getD (bv.buffer.length - 1) 0 =
        bv.buffer.getD (bv.buffer.length - 1) 0 :=
      List.getD_append _ _ _ _ hQlt
    have hsh : ((v <<< 56) % U64M) >>> (bv.len % 64) = v := by
      rw [h56, shift_combine v 56 hv (by norm_num), Nat.shiftLeft_zero]
    have hzero : (((v <<< 56) % U64M) <<< (64 - bv.len % 64)) % U64M = 0 := by
      rw [h56]
      exact shifted_top_zero v hv
    rw [hgetap, hsh, hzero]
    set w := bv.buffer.getD (bv.buffer.length - 1) 0 with hwdef
    refine ⟨hidx, by simp; omega, ?_, ?_, ?_⟩
    · -- buffer length bookkeeping
      dsimp only
      simp only [List.length_set, List.length_append, List.length_singleton]
      omega
    · -- bits below the new length
      intro i hi
      dsimp only at hi ⊢
      rw [bitAt_set _ _ _ _ (by simp [List.length_set]; omega),
        bitAt_set _ _ _ _ (by simp; omega), bitAt_append_zero]
      by_cases hiQ1 : i / 64 = bv.buffer.length - 1 + 1
      · exfalso; omega
      · rw [if_neg hiQ1]
        by_cases hiQ : i / 64 = bv.buffer.length - 1
        · rw [if_pos hiQ]
          by_cases hiL : i < bv.len
          · -- an old bit of the last word is preserved
            have hj8 : 8 ≤ 63 - i % 64 := by omega
            rw [shiftRight_and_one, Nat.testBit_or,
              Nat.testBit_lt_two_pow
                (lt_of_lt_of_le hv (Nat.pow_le_pow_right (by norm_num : 0 < 2) hj8)),
              Bool.or_false, ← shiftRight_and_one]
            have : bitAt bv.buffer i = byteBit bytes i := hbits i hiL
            unfold bitAt at this
            rw [hiQ] at this
            rw [← hwdef] at this
            rw [this]
            rw [byteBit_eq, byteBit_eq, List.getD_append _ _ _ _ (by omega)]
          · -- one of the 8 new bits
            have hr : i - bv.len < 8 := by omega
            have hi64 : i % 64 = 56 + (i - bv.len) := by omega
            have hwz : w.testBit (63 - i % 64) = false := by
              have h0 : bitAt bv.buffer i = 0 := htrail i (by omega)
              rw [bitAt_eq, hiQ, ← hwdef] at h0
              exact if_testBit_eq_zero h0
            rw [shiftRight_and_one, Nat.testBit_or, hwz, Bool.false_or]
            have h7r : 63 - i % 64 = 7 - (i - bv.len) := by omega
            rw [h7r, rev8_testBit b hb (i - bv.len) hr]
            rw [byteBit_eq, List.getD_append_right _ _ _ _ (by omega)]
            have hK : i / 8 - bytes.length = 0 := by omega
            have hr8 : i % 8 = i - bv.len := by omega
            rw [hK, hr8]
            rfl
        · rw [if_neg hiQ, if_pos (by omega)]
          rw [hbits i (by omega)]
          rw [byteBit_eq, byteBit_eq, List.getD_append _ _ _ _ (by omega)]
    · -- bits at and above the new length are zero
      intro i hi
      dsimp only at hi ⊢
      rw [bitAt_set _ _ _ _ (by simp [List.length_set]; omega),
        bitAt_set _ _ _ _ (by simp; omega), bitAt_append_zero]
      by_cases hiQ1 : i / 64 = bv.buffer.length - 1 + 1
      · rw [if_pos hiQ1]
        simp [Nat.zero_shiftRight]
      · rw [if_neg hiQ1]
        rw [if_neg (by omega), if_neg (by omega)]
  · -- the byte lands inside the last word
    have hBI : bv.len % 64 ≤ 48 := by omega
    simp only [if_neg h64]
    have hsh : ((v <<< 56) % U64M) >>> (bv.len % 64) =
        v <<< (56 - bv.len % 64) :=
      shift_combine v (bv.len % 64) hv (by omega)
    rw [hsh]
    set w := bv.buffer.getD (bv.buffer.length - 1) 0 with hwdef
    have hxlt : v <<< (56 - bv.len % 64) < 2 ^ (64 - bv.len % 64) := by
      have h1 : v < 2 ^ 8 := hv
      have h2 := Nat.shiftLeft_lt (m := 56 - bv.len % 64) h1
      have h3 : 8 + (56 - bv.len % 64) = 64 - bv.len % 64 := by omega
      rw [h3] at h2
      exact h2
    refine ⟨hidx, by simp; omega, ?_, ?_, ?_⟩
    · dsimp only
      simp only [List.length_set]
      omega
    · intro i hi
      dsimp only at hi ⊢
      rw [bitAt_set _ _ _ _ hQlt]
      by_cases hiQ : i / 64 = bv.buffer.length - 1
      · rw [if_pos hiQ]
        by_cases hiL : i < bv.len
        · -- old bit of the last word
          have hjge : 64 - bv.len % 64 ≤ 63 - i % 64 := by omega
          rw [shiftRight_and_one, Nat.testBit_or,
            Nat.testBit_lt_two_pow
              (lt_of_lt_of_le hxlt (Nat.pow_le_pow_right (by norm_num : 0 < 2) hjge)),
            Bool.or_false, ← shiftRight_and_one]
          have : bitAt bv.buffer i = byteBit bytes i := hbits i hiL
          unfold bitAt at this
          rw [hiQ, ← hwdef] at this
          rw [this]
          rw [byteBit_eq, byteBit_eq, List.getD_append _ _ _ _ (by omega)]
        · -- new bit
          have hr : i - bv.len < 8 := by omega
          have hwz : w.testBit (63 - i % 64) = false := by
            have h0 : bitAt bv.buffer i = 0 := htrail i (by omega)
            rw [bitAt_eq, hiQ, ← hwdef] at h0
            exact if_testBit_eq_zero h0
          rw [shiftRight_and_one, Nat.testBit_or, hwz, Bool.false_or,
            Nat.testBit_shiftLeft]
          have hjge : 63 - i % 64 ≥ 56 - bv.len % 64 := by omega
          have h7r : 63 - i % 64 - (56 - bv.len % 64) = 7 - (i - bv.len) := by
            omega
          rw [h7r]
          simp only [ge_iff_le, hjge, decide_True, Bool.true_and]
          rw [rev8_testBit b hb (i - bv.len) hr]
          rw [byteBit_eq, List.getD_append_right _ _ _ _ (by omega)]
          have hK : i / 8 - bytes.length = 0 := by omega
          have hr8 : i % 8 = i - bv.len := by omega
          rw [hK, hr8]
          rfl
      · rw [if_neg hiQ]
        rw [hbits i (by omega)]
        rw [byteBit_eq, byteBit_eq, List.getD_append _ _ _ _ (by omega)]
    · intro i hi
      dsimp only at hi ⊢
      rw [bitAt_set _ _ _ _ hQlt]
      by_cases hiQ : i / 64 = bv.buffer.length - 1
      · rw [if_pos hiQ]
        have hwz : w.testBit (63 - i % 64) = false := by
          have h0 : bitAt bv.buffer i = 0 := htrail i (by omega)
          rw [bitAt_eq, hiQ, ← hwdef] at h0
          exact if_testBit_eq_zero h0
        rw [shiftRight_and_one, Nat.testBit_or, hwz, Bool.false_or,
          Nat.testBit_shiftLeft]
        have hjlt : ¬ (56 - bv.len % 64 ≤ 63 - i % 64) := by omega
        simp [hjlt]
      · rw [if_neg hiQ]
        exact htrail i (by omega)



theorem goodBuf_new : GoodBuf [] BitVector64.new := by
  refine ⟨rfl, rfl, rfl, by simp [BitVector64.new], ?_⟩
  intro i _
  unfold bitAt
  have h : (BitVector64.new.buffer).getD (i / 64) 0 = 0 := by
    show ([0] : List Nat).getD (i / 64) 0 = 0
    rcases Nat.eq_zero_or_pos (i / 64) with h | h
    · rw [h]; rfl
    · exact List.getD_eq_default _ _ (by simpa using h)
  rw [h]
  simp [Nat.zero_shiftRight]

theorem goodBuf_fold : ∀ (raw bytes : List Nat) (bv : BitVector64),
    (∀ x ∈ raw, x < 256) → GoodBuf bytes bv →
    GoodBuf (bytes ++ raw) (raw.foldl BitVector64.pushByte bv) := by
  intro raw
  induction raw with
  | nil => intro bytes bv _ h; simpa using h
  | cons b rest ih =>
    intro bytes bv hall h
    have h1 : GoodBuf (bytes ++ [b]) (BitVector64.pushByte bv b) :=
      goodBuf_pushByte bytes bv b (hall b (by simp)) h
    have h2 := ih (bytes ++ [b]) (BitVector64.pushByte bv b)
      (fun x hx => hall x (by simp [hx])) h1
    simpa using h2

theorem from_be_bytes_goodBuf (raw : List Nat) (h : ∀ x ∈ raw, x < 256) :
    GoodBuf raw (BitVector64.from_be_bytes raw) := by
  have := goodBuf_fold raw [] BitVector64.new h goodBuf_new
  simpa [BitVector64.from_be_bytes] using this

theorem nextIter_eq (bv : BitVector64) (i : Nat) (hidx : bv.idx = 0)
    (hi : i ≤ bv.len) : nextIter bv i = { bv with idx := i } := by
  induction i with
  | zero =>
    show bv = { bv with idx := 0 }
    cases bv
    simp_all
  | succ n ih =>
    show (BitVector64.next (nextIter bv n)).2 = _
    rw [ih (by omega)]
    unfold BitVector64.next
    dsimp only
    rw [if_pos (by omega : n < bv.len)]

theorem iterNth_eq_bitAt (bv : BitVector64) (i : Nat) (hidx : bv.idx = 0)
    (hi : i < bv.len) : iterNth bv i = some (bitAt bv.buffer i) := by
  unfold iterNth
  rw [nextIter_eq bv i hidx (le_of_lt hi)]
  unfold BitVector64.next
  dsimp only
  rw [if_pos (show i < bv.len from hi)]
  rfl

/-- C9: for every byte array, the `i`-th bit yielded by iterating the
`BitVector64` built by `from_be_bytes` is bit `i mod 8` of byte
`i div 8` — bits are delivered from the least significant bit of each
byte to the most significant. -/
theorem c9_from_be_bytes_bit_order (raw : List Nat)
    (hraw : ∀ x ∈ raw, x < 256) (i : Nat) (hi : i < 8 * raw.length) :
    iterNth (BitVector64.from_be_bytes raw) i =
      some ((raw.getD (i / 8) 0 >>> (i % 8)) &&& 1) := by
  obtain ⟨hidx, hlen, hblen, hbits, htrail⟩ := from_be_bytes_goodBuf raw hraw
  rw [iterNth_eq_bitAt _ _ hidx (by omega)]
  rw [hbits i (by omega)]
  rfl

/-- Witness for C9 at a concrete byte: bit 3 of the byte 0xA5 = 165. -/
theorem c9_from_be_bytes_bit_order_witness :
    (∀ x ∈ [165], x < 256) ∧ 3 < 8 * [165].length ∧
    iterNth (BitVector64.from_be_bytes [165]) 3 =
      some (([165].getD (3 / 8) 0 >>> (3 % 8)) &&& 1) :=
  ⟨by decide, by decide,
    c9_from_be_bytes_bit_order [165] (by decide) 3 (by decide)⟩

theorem le_foldl_max_init (l : List Nat) (init : Nat) :
    init ≤ l.foldl max init := by
  induction l generalizing init with
  | nil => exact Nat.le_refl _
  | cons x xs ih =>
    exact le_trans (Nat.le_max_left init x) (ih (max init x))

theorem mem_le_foldl_max (l : List Nat) (init x : Nat) (hx : x ∈ l) :
    x ≤ l.foldl max init := by
  induction l generalizing init with
  | nil => cases hx
  | cons y ys ih =>
    rcases List.mem_cons.mp hx with h | h
    · subst h
      exact le_trans (Nat.le_max_right init x) (le_foldl_max_init ys _)
    · exact ih _ h

theorem getD_le_max_length (L : List Nat) (s : Nat) (hs : s < L.length) :
    L.getD s 0 ≤ max_length L := by
  have hmem : L.getD s 0 ∈ L := by
    rw [List.getD_eq_getElem _ _ hs]
    exact List.getElem_mem hs
  exact mem_le_foldl_max L 0 _ hmem

theorem occ_fold_length (L : List Nat) :
    ∀ acc : List Nat,
      (L.foldl (fun acc idx =>
        acc.set idx (min (acc.getD idx 0 + 1) (U32M - 1))) acc).length =
      acc.length := by
  induction L with
  | nil => intro acc; rfl
  | cons x xs ih =>
    intro acc
    rw [List.foldl_cons, ih]
    exact List.length_set ..

set_option maxRecDepth 4000 in
theorem occurances_length (L : List Nat) : (occurances L).length = 256 := by
  unfold occurances
  rw [occ_fold_length, List.length_replicate]

theorem min_min_add (a L M : Nat) (h : a ≤ M) :
    min (min (a + 1) M + L) M = min (a + (L + 1)) M := by
  omega

theorem occ_fold_spec (L : List Nat) :
    ∀ acc : List Nat, acc.length = 256 → (∀ x ∈ L, x < 256) →
      (∀ n, acc.getD n 0 ≤ U32M - 1) →
      ∀ n, n < 256 →
        (L.foldl (fun acc idx =>
          acc.set idx (min (acc.getD idx 0 + 1) (U32M - 1))) acc).getD n 0 =
        min (acc.getD n 0 + (L.filter (fun x => x = n)).length) (U32M - 1) := by
  induction L with
  | nil =>
    intro acc _ _ hacc n _
    simp only [List.foldl_nil, List.filter_nil, List.length_nil, Nat.add_zero]
    exact (Nat.min_eq_left (hacc n)).symm
  | cons x xs ih =>
    intro acc hlen hall hacc n hn
    rw [List.foldl_cons]
    have hx : x < 256 := hall x (by simp)
    have hstep := ih (acc.set x (min (acc.getD x 0 + 1) (U32M - 1)))
      (by rw [List.length_set]; exact hlen)
      (fun y hy => hall y (by simp [hy]))
      (fun m => by
        by_cases hmx : m = x
        · subst hmx
          rw [getD_set_self _ _ _ _ (by omega)]
          omega
        · rw [getD_set_ne _ _ _ _ _ (fun hh => hmx hh.symm)]
          exact hacc m)
      n hn
    rw [hstep]
    by_cases hnx : x = n
    · subst hnx
      rw [getD_set_self _ _ _ _ (by omega)]
      have : (List.filter (fun y => decide (y = x)) (x :: xs)).length =
          (List.filter (fun y => decide (y = x)) xs).length + 1 := by
        simp [List.filter_cons]
      rw [this]
      exact min_min_add _ _ _ (hacc x)
    · rw [getD_set_ne _ _ _ _ _ hnx]
      have : (List.filter (fun y => decide (y = n)) (x :: xs)).length =
          (List.filter (fun y => decide (y = n)) xs).length := by
        simp [List.filter_cons, hnx]
      rw [this]



theorem next_code_st_eq_ncFold (L : List Nat) :
    next_code_st L = ncFold (occurancesZ L) (max_length L) (max_length L) :=
  rfl

theorem assign_st_eq_assignFold (L : List Nat) :
    assign_st L = assignFold L (next_code L) L.length :=
  rfl

theorem getD_replicate_zero (k n : Nat) :
    (List.replicate k (0 : Nat)).getD n 0 = 0 := by
  simp [List.getD_eq_getElem?_getD, List.getElem?_replicate]
  split <;> rfl

theorem getD_replicate_none {α : Type} (k n : Nat) :
    (List.replicate k (none : Option α)).getD n none = none := by
  simp [List.getD_eq_getElem?_getD, List.getElem?_replicate]
  split <;> rfl

theorem ncVal_lt (occ : List Nat) (n : Nat) : ncVal occ n < U32M := by
  cases n with
  | zero => norm_num [ncVal, U32M]
  | succ k =>
    show ((ncVal occ k + occ.getD k 0) * 2) % U32M < U32M
    exact Nat.mod_lt _ (by norm_num [U32M])

theorem ncFold_spec (occ : List Nat) (m : Nat) :
    ∀ j, j ≤ m →
      (ncFold occ m j).1 = ncVal occ j ∧
      (ncFold occ m j).2.length = m + 1 ∧
      ∀ n, (ncFold occ m j).2.getD n 0 =
        if 1 ≤ n ∧ n ≤ j then ncVal occ n else 0 := by
  intro j
  induction j with
  | zero =>
    intro _
    refine ⟨rfl, by simp [ncFold], ?_⟩
    intro n
    rw [if_neg (by omega)]
    exact getD_replicate_zero _ _
  | succ k ih =>
    intro hk
    obtain ⟨ih1, ih2, ih3⟩ := ih (by omega)
    have hunf : ncFold occ m (k + 1) =
        (((ncFold occ m k).1 + occ.getD k 0) * 2 % U32M,
         (ncFold occ m k).2.set (k + 1)
           (((ncFold occ m k).1 + occ.getD k 0) * 2 % U32M)) := by
      unfold ncFold
      rw [List.range_succ, List.foldl_append]
      rfl
    rw [hunf]
    refine ⟨?_, ?_, ?_⟩
    · show ((ncFold occ m k).1 + occ.getD k 0) * 2 % U32M = ncVal occ (k + 1)
      rw [ih1]
      rfl
    · simpa [List.length_set] using ih2
    · intro n
      by_cases hn : n = k + 1
      · subst hn
        rw [getD_set_self _ _ _ _ (by omega), if_pos (by omega), ih1]
        rfl
      · rw [getD_set_ne _ _ _ _ _ (fun hh => hn hh.symm), ih3]
        by_cases h1 : 1 ≤ n ∧ n ≤ k
        · rw [if_pos h1, if_pos (by omega)]
        · rw [if_neg h1, if_neg (by omega)]

theorem next_code_length (L : List Nat) :
    (next_code L).length = max_length L + 1 := by
  show (next_code_st L).2.length = _
  rw [next_code_st_eq_ncFold]
  exact ((ncFold_spec (occurancesZ L) (max_length L) (max_length L)
    (le_refl _)).2).1

theorem next_code_getD (L : List Nat) (n : Nat) :
    (next_code L).getD n 0 =
      if 1 ≤ n ∧ n ≤ max_length L then ncVal (occurancesZ L) n else 0 := by
  show (next_code_st L).2.getD n 0 = _
  rw [next_code_st_eq_ncFold]
  exact ((ncFold_spec (occurancesZ L) (max_length L) (max_length L)
    (le_refl _)).2).2 n

theorem next_code_getD_lt (L : List Nat) (n : Nat) :
    (next_code L).getD n 0 < U32M := by
  rw [next_code_getD]
  by_cases h : 1 ≤ n ∧ n ≤ max_length L
  · rw [if_pos h]; exact ncVal_lt _ _
  · rw [if_neg h]; norm_num [U32M]



theorem cnt_zero (L : List Nat) (n : Nat) : cnt L n 0 = 0 := rfl

theorem cnt_succ (L : List Nat) (n s : Nat) (hs : s < L.length) :
    cnt L n (s + 1) = cnt L n s + (if L.getD s 0 = n then 1 else 0) := by
  unfold cnt
  rw [List.take_succ]
  have h : L[s]? = some (L.getD s 0) := by
    rw [List.getD_eq_getElem _ _ hs]
    exact List.getElem?_eq_getElem hs
  rw [h]
  show (List.filter _ (L.take s ++ [L.getD s 0])).length = _
  rw [List.filter_append, List.length_append]
  by_cases hv : L.getD s 0 = n
  · rw [if_pos hv, hv]
    simp
  · rw [if_neg hv, List.filter_cons,
      if_neg (fun hc => hv (of_decide_eq_true hc)), List.filter_nil]
    rfl

theorem mod_succ_mod (a M : Nat) (hM : 1 < M) :
    (a % M + 1) % M = (a + 1) % M := by
  conv_rhs => rw [Nat.add_mod, Nat.mod_eq_of_lt hM]

theorem assignFold_spec (L : List Nat) (nc0 : List Nat)
    (hnc0lt : ∀ n, nc0.getD n 0 < U32M)
    (hnclen : ∀ s, s < L.length → L.getD s 0 < nc0.length) :
    ∀ s, s ≤ L.length →
      (assignFold L nc0 s).1.length = L.length ∧
      (assignFold L nc0 s).2.length = nc0.length ∧
      (∀ j, s ≤ j → (assignFold L nc0 s).1.getD j none = none) ∧
      (∀ j, j < s → (assignFold L nc0 s).1.getD j none =
        if L.getD j 0 ≠ 0 then
          some ((nc0.getD (L.getD j 0) 0 + cnt L (L.getD j 0) j) % U32M)
        else none) ∧
      (∀ n, n ≠ 0 → (assignFold L nc0 s).2.getD n 0 =
        (nc0.getD n 0 + cnt L n s) % U32M) := by
  intro s
  induction s with
  | zero =>
    intro _
    refine ⟨by simp [assignFold], by simp [assignFold], ?_, ?_, ?_⟩
    · intro j _
      exact getD_replicate_none _ _
    · intro j hj
      omega
    · intro n _
      rw [cnt_zero, Nat.add_zero, Nat.mod_eq_of_lt (hnc0lt n)]
      rfl
  | succ k ih =>
    intro hk
    obtain ⟨ih1, ih2, ih3, ih4, ih5⟩ := ih (by omega)
    have hkL : k < L.length := by omega
    have hunf : assignFold L nc0 (k + 1) =
        (if L.getD k 0 ≠ 0 then
          ((assignFold L nc0 k).1.set k
             (some ((assignFold L nc0 k).2.getD (L.getD k 0) 0)),
           (assignFold L nc0 k).2.set (L.getD k 0)
             (((assignFold L nc0 k).2.getD (L.getD k 0) 0 + 1) % U32M))
        else assignFold L nc0 k) := by
      unfold assignFold
      rw [List.range_succ, List.foldl_append]
      rfl
    by_cases h0 : L.getD k 0 ≠ 0
    · rw [hunf, if_pos h0]
      have hsetlen : L.getD k 0 < (assignFold L nc0 k).2.length := by
        rw [ih2]
        exact hnclen k hkL
      refine ⟨by simpa [List.length_set] using ih1,
              by simpa [List.length_set] using ih2, ?_, ?_, ?_⟩
      · intro j hj
        rw [getD_set_ne _ _ _ _ _ (by omega)]
        exact ih3 j (by omega)
      · intro j hj
        by_cases hjk : j = k
        · subst hjk
          rw [getD_set_self _ _ _ _ (by rw [ih1]; omega), if_pos h0,
            ih5 _ h0]
        · rw [getD_set_ne _ _ _ _ _ (fun hh => hjk hh.symm)]
          exact ih4 j (by omega)
      · intro n hn
        by_cases hne : L.getD k 0 = n
        · subst hne
          rw [getD_set_self _ _ _ _ hsetlen, ih5 _ h0,
            cnt_succ L _ k hkL, if_pos rfl,
            mod_succ_mod _ _ (by norm_num [U32M]), Nat.add_assoc]
        · rw [getD_set_ne _ _ _ _ _ hne, ih5 n hn,
            cnt_succ L n k hkL, if_neg hne, Nat.add_zero]
    · rw [hunf, if_neg h0]
      refine ⟨ih1, ih2, ?_, ?_, ?_⟩
      · intro j hj
        exact ih3 j (by omega)
      · intro j hj
        by_cases hjk : j = k
        · subst hjk
          rw [if_neg h0]
          exact ih3 j (le_refl _)
        · exact ih4 j (by omega)
      · intro n hn
        push_neg at h0
        rw [ih5 n hn, cnt_succ L n k hkL, if_neg (by omega), Nat.add_zero]



theorem codes_getD (L : List Nat) (s : Nat) (hs : s < L.length)
    (h0 : L.getD s 0 ≠ 0) :
    (codes L).getD s none =
      some (((next_code L).getD (L.getD s 0) 0 +
        cnt L (L.getD s 0) s) % U32M) := by
  show (assign_st L).1.getD s none = _
  rw [assign_st_eq_assignFold]
  have hspec := assignFold_spec L (next_code L) (next_code_getD_lt L)
    (fun t ht => by
      rw [next_code_length]
      have := getD_le_max_length L t ht
      omega)
    L.length (le_refl _)
  have := (hspec.2.2.2.1) s hs
  rw [this, if_pos h0]

theorem cnt_between (L : List Nat) (n s1 s2 : Nat) (h12 : s1 < s2)
    (h2 : s2 ≤ L.length) (hn1 : L.getD s1 0 = n)
    (hbet : ∀ t, s1 < t → t < s2 → L.getD t 0 ≠ n) :
    cnt L n s2 = cnt L n s1 + 1 := by
  have h12' : s1 + 1 ≤ s2 := h12
  clear h12
  induction s2, h12' using Nat.le_induction with
  | base =>
    rw [cnt_succ L n s1 (by omega), if_pos hn1]
  | succ t ht ih =>
    rw [cnt_succ L n t (by omega),
      if_neg (hbet t (by omega) (by omega)), Nat.add_zero]
    exact ih (by omega) (fun u hu1 hu2 => hbet u hu1 (by omega))

/-- C7: `PrefixTree::from_lengths` implements the canonical code
assignment of RFC 1951 §3.2.2 (in `u32` arithmetic): `bl_count[0]` is
forced to 0 and `bl_count[n]` counts the symbols of length `n`;
`next_code[1] = 0`; `next_code[n] = (next_code[n-1] + bl_count[n-1]) << 1`
for `2 ≤ n ≤ max(L)`; each symbol `s` with `L[s] > 0` receives
`next_code[L[s]]` plus the number of earlier symbols of the same length
(the running increments); consequently two symbols of the same length
with no such symbol between them receive consecutive codes in symbol
order. -/
theorem c7_canonical_code_construction (L : List Nat)
    (hL : ∀ x ∈ L, x < 256) :
    (occurancesZ L).getD 0 0 = 0 ∧
    (∀ n, n ≠ 0 → n < 256 → (occurancesZ L).getD n 0 =
      min (L.filter (fun x => x = n)).length (U32M - 1)) ∧
    (1 ≤ max_length L → (next_code L).getD 1 0 = 0) ∧
    (∀ n, 2 ≤ n → n ≤ max_length L →
      (next_code L).getD n 0 =
        (((next_code L).getD (n - 1) 0 +
          (occurancesZ L).getD (n - 1) 0) <<< 1) % U32M) ∧
    (∀ s, s < L.length → L.getD s 0 ≠ 0 →
      (codes L).getD s none =
        some (((next_code L).getD (L.getD s 0) 0 +
          cnt L (L.getD s 0) s) % U32M)) ∧
    (∀ s1 s2 c1, s1 < s2 → s2 < L.length →
      L.getD s1 0 ≠ 0 → L.getD s1 0 = L.getD s2 0 →
      (∀ t, s1 < t → t < s2 → L.getD t 0 ≠ L.getD s1 0) →
      (codes L).getD s1 none = some c1 →
      (codes L).getD s2 none = some ((c1 + 1) % U32M)) := by
  have hocc0 : (occurancesZ L).getD 0 0 = 0 := by
    unfold occurancesZ
    rw [getD_set_self _ _ _ _ (by rw [occurances_length]; norm_num)]
  refine ⟨hocc0, ?_, ?_, ?_, codes_getD L, ?_⟩
  · intro n hn0 hn
    unfold occurancesZ
    rw [getD_set_ne _ _ _ _ _ (fun hh => hn0 hh.symm)]
    unfold occurances
    have h := occ_fold_spec L (List.replicate 256 0) (by rw [List.length_replicate]) hL
      (fun m => by rw [getD_replicate_zero]; norm_num [U32M]) n hn
    rw [h, getD_replicate_zero, Nat.zero_add]
  · intro hm
    rw [next_code_getD, if_pos (by omega)]
    show ((ncVal (occurancesZ L) 0 + (occurancesZ L).getD 0 0) * 2) % U32M = 0
    rw [hocc0]
    rfl
  · intro n h2 hn
    rw [next_code_getD, if_pos (by omega), next_code_getD,
      if_pos (by omega), Nat.shiftLeft_eq]
    obtain ⟨k, hk⟩ : ∃ k, n = k + 1 := ⟨n - 1, by omega⟩
    subst hk
    show ((ncVal (occurancesZ L) k + (occurancesZ L).getD k 0) * 2) % U32M = _
    norm_num
  · intro s1 s2 c1 h12 hs2 h01 heq hbet hc1
    rw [codes_getD L s1 (by omega) h01] at hc1
    rw [codes_getD L s2 hs2 (by rw [← heq]; exact h01), ← heq,
      cnt_between L (L.getD s1 0) s1 s2 h12 (by omega) rfl hbet]
    have hlt : ((next_code L).getD (L.getD s1 0) 0 +
        cnt L (L.getD s1 0) s1) % U32M = c1 := by
      injection hc1
    rw [← hlt, ← Nat.add_assoc, mod_succ_mod _ _ (by norm_num [U32M])]

/-- Witness for C7 at the concrete length vector `[3,3,3,3,3,2,4,4]`
(the vector of the repository's own prefix-tree test): symbol 0 gets
code 2 and symbol 1, of the same length, gets the consecutive code 3. -/
theorem c7_canonical_code_construction_witness :
    (∀ x ∈ [3, 3, 3, 3, 3, 2, 4, 4], x < 256) ∧
    (codes [3, 3, 3, 3, 3, 2, 4, 4]).getD 0 none = some 2 ∧
    (codes [3, 3, 3, 3, 3, 2, 4, 4]).getD 1 none = some ((2 + 1) % U32M) := by
  have h := c7_canonical_code_construction [3, 3, 3, 3, 3, 2, 4, 4] (by decide)
  refine ⟨by decide, by decide, ?_⟩
  exact h.2.2.2.2.2 0 1 2 (by decide) (by decide) (by decide) (by decide)
    (fun t ht1 ht2 => by omega) (by decide)

theorem from_lengths_eq_fold (L : List Nat) :
    PrefixTree.from_lengths L = ((codes L).enum).foldl (insStep L) PrefixTree.new :=
  rfl

theorem foldl_preserve {α β : Type} (P : α → Prop) (f : α → β → α)
    (hstep : ∀ a b, P a → P (f a b)) :
    ∀ (l : List β) (a : α), P a → P (l.foldl f a) := by
  intro l
  induction l with
  | nil => intro a h; exact h
  | cons x xs ih => intro a h; exact ih _ (hstep a x h)

theorem codes_length (L : List Nat) : (codes L).length = L.length := by
  show (assign_st L).1.length = L.length
  unfold assign_st
  apply foldl_preserve
    (fun (st : List (Option Nat) × List Nat) => st.1.length = L.length)
  · intro a b h
    dsimp only
    split
    · simpa [List.length_set] using h
    · exact h
  · simp

theorem bits_binary (c : Code) : binaryBits c.bits := by
  intro b hb
  unfold Code.bits at hb
  obtain ⟨i, _, hi⟩ := List.mem_map.mp hb
  rw [← hi, Nat.and_one_is_mod]
  omega

theorem isPrefixOf_append_self (l r : List Nat) :
    l.isPrefixOf (l ++ r) = true := by
  induction l with
  | nil => simp
  | cons a t ih => simp [List.isPrefixOf, ih]

theorem isPrefixOf_self (l : List Nat) : l.isPrefixOf l = true := by
  induction l with
  | nil => simp
  | cons a t ih => simp [List.isPrefixOf, ih]



theorem child_setValue (n : Node) (v : Option Nat) (b : Nat) :
    (n.setValue v).child b = n.child b := by
  cases n; rfl

theorem child_setCode (n : Node) (c : Code) (b : Nat) :
    (n.setCode c).child b = n.child b := by
  cases n; rfl

theorem value_setCode (n : Node) (c : Code) :
    (n.setCode c).value = n.value := by
  cases n; rfl

theorem value_setValue (n : Node) (v : Option Nat) :
    (n.setValue v).value = v := by
  cases n; rfl

theorem value_setChild (n : Node) (b : Nat) (x : Option Node) :
    (n.setChild b x).value = n.value := by
  cases n
  unfold Node.setChild
  by_cases h0 : b = 0
  · simp [h0, Node.value]
  · by_cases h1 : b = 1 <;> simp [h0, h1, Node.value]

theorem child_setChild (n : Node) (b c : Nat) (x : Option Node)
    (hb : b ≤ 1) (hc : c ≤ 1) :
    (n.setChild b x).child c = if c = b then x else n.child c := by
  have hb2 : b = 0 ∨ b = 1 := by omega
  have hc2 : c = 0 ∨ c = 1 := by omega
  rcases hb2 with rfl | rfl <;> rcases hc2 with rfl | rfl <;>
    (cases n; simp [Node.setChild, Node.child, Node.left, Node.right])

theorem valueAt_setCode (m : Node) (c : Code) (q : List Nat) :
    (m.setCode c).valueAt q = m.valueAt q := by
  cases q with
  | nil => exact value_setCode m c
  | cons b p =>
    unfold Node.valueAt Node.nodeAt
    rw [child_setCode]

theorem valueAt_new (q : List Nat) : Node.new.valueAt q = none := by
  cases q with
  | nil => rfl
  | cons b p =>
    unfold Node.valueAt Node.nodeAt
    have : Node.new.child b = none := by
      unfold Node.child Node.new
      split
      · rfl
      · split <;> rfl
    rw [this]



theorem valueAt_insertPath (bits : List Nat) :
    ∀ (n : Node) (cur full : Code) (v : Nat) (p : List Nat),
      binaryBits bits → binaryBits p →
      (PrefixTree.insertPath n bits cur full v).valueAt p =
        if p = bits then some v else n.valueAt p := by
  induction bits with
  | nil =>
    intro n cur full v p _ _
    show (((n.setValue (some v)).setCode full)).valueAt p = _
    cases p with
    | nil =>
      rw [if_pos rfl]
      rw [valueAt_setCode]
      exact value_setValue n (some v)
    | cons c q =>
      rw [if_neg (by simp)]
      rw [valueAt_setCode]
      show Node.valueAt (n.setValue (some v)) (c :: q) = Node.valueAt n (c :: q)
      unfold Node.valueAt Node.nodeAt
      rw [child_setValue]
  | cons b rest ih =>
    intro n cur full v p hbits hp
    have hb : b ≤ 1 := hbits b (by simp)
    have hrest : binaryBits rest := fun x hx => hbits x (by simp [hx])
    show (PrefixTree.insertPath n (b :: rest) cur full v).valueAt p = _
    unfold PrefixTree.insertPath
    rw [if_pos (by omega : b = 0 ∨ b = 1)]
    cases p with
    | nil =>
      rw [if_neg (by simp)]
      show (Node.setChild n b _).valueAt [] = n.valueAt []
      have h1 : ∀ m : Node, m.valueAt ([] : List Nat) = m.value := fun m => rfl
      rw [h1, h1]
      exact value_setChild ..
    | cons c q =>
      have hc : c ≤ 1 := hp c (by simp)
      have hq : binaryBits q := fun x hx => hp x (by simp [hx])
      by_cases hcb : c = b
      · subst hcb
        show Node.valueAt _ (c :: q) = _
        unfold Node.valueAt Node.nodeAt
        rw [child_setChild _ _ _ _ hc hc, if_pos rfl]
        have hmain := ih ((match n.child c with
            | some cc => cc
            | none => Node.new).setCode (cur.push_bit c))
          (cur.push_bit c) full v q hrest hq
        show (PrefixTree.insertPath _ rest _ full v).valueAt q = _
        rw [hmain]
        by_cases hq2 : q = rest
        · rw [if_pos hq2, if_pos (by rw [hq2])]
        · rw [if_neg hq2, if_neg (by simp [hq2]), valueAt_setCode]
          cases hnc : n.child c with
          | some cc => rfl
          | none => exact valueAt_new q
      · rw [if_neg (by simp [hcb])]
        show Node.valueAt _ (c :: q) = Node.valueAt n (c :: q)
        unfold Node.valueAt Node.nodeAt
        rw [child_setChild _ _ _ _ hb hc, if_neg hcb]



theorem insStep_root (L : List Nat) (t : PrefixTree) (i : Nat)
    (oc : Option Nat) :
    (insStep L t (i, oc)).root =
      match oc with
      | some c => PrefixTree.insertPath t.root
          (Code.from_parts c (L.getD i 0)).bits Code.new
          (Code.from_parts c (L.getD i 0)) i
      | none => t.root := by
  cases oc <;> rfl

theorem fold_insert_untouched (L : List Nat) :
    ∀ (items : List (Nat × Option Nat)) (t : PrefixTree) (p : List Nat),
      binaryBits p →
      (∀ ic ∈ items, ∀ c, ic.2 = some c → assignedPath L ic.1 c ≠ p) →
      (items.foldl (insStep L) t).root.valueAt p = t.root.valueAt p := by
  intro items
  induction items with
  | nil => intro t p _ _; rfl
  | cons ic rest ih =>
    intro t p hp hno
    rw [List.foldl_cons]
    rw [ih (insStep L t ic) p hp (fun jc hj => hno jc (by simp [hj]))]
    obtain ⟨i, oc⟩ := ic
    cases oc with
    | none => rfl
    | some c =>
      show (PrefixTree.insertPath t.root _ Code.new _ i).valueAt p = _
      rw [valueAt_insertPath _ _ _ _ _ _ (bits_binary _) hp,
        if_neg (fun hh => hno (i, some c) (by simp) c rfl hh.symm)]

theorem fold_insert_found (L : List Nat) :
    ∀ (items : List (Nat × Option Nat)) (t : PrefixTree) (s c : Nat)
      (p : List Nat),
      p = assignedPath L s c → binaryBits p →
      (s, some c) ∈ items →
      (∀ ic ∈ items, ∀ ci, ic.2 = some ci →
        assignedPath L ic.1 ci = p → ic = (s, some c)) →
      (items.foldl (insStep L) t).root.valueAt p = some s := by
  intro items
  induction items with
  | nil => intro t s c p _ _ hmem _; cases hmem
  | cons ic rest ih =>
    intro t s c p hpdef hp hmem huniq
    rw [List.foldl_cons]
    by_cases hrest : (s, some c) ∈ rest
    · exact ih (insStep L t ic) s c p hpdef hp hrest
        (fun jc hj => huniq jc (by simp [hj]))
    · have hic : ic = (s, some c) := by
        rcases List.mem_cons.mp hmem with h | h
        · exact h.symm
        · exact absurd h hrest
      subst hic
      rw [fold_insert_untouched L rest _ p hp
        (fun jc hj ci hci hpath => hrest (by
          have := huniq jc (by simp [hj]) ci hci hpath
          rw [← this]
          exact hj))]
      show (PrefixTree.insertPath t.root _ Code.new _ s).valueAt p = some s
      rw [valueAt_insertPath _ _ _ _ _ _ (bits_binary _) hp,
        if_pos (by rw [hpdef]; rfl)]

theorem fold_insert_current (L : List Nat) :
    ∀ (items : List (Nat × Option Nat)) (t : PrefixTree),
      t.current = t.root →
      (items.foldl (insStep L) t).current =
        (items.foldl (insStep L) t).root := by
  intro items
  induction items with
  | nil => intro t h; exact h
  | cons ic rest ih =>
    intro t h
    rw [List.foldl_cons]
    apply ih
    obtain ⟨i, oc⟩ := ic
    cases oc with
    | none => exact h
    | some c => rfl

theorem from_lengths_current (L : List Nat) :
    (PrefixTree.from_lengths L).current = (PrefixTree.from_lengths L).root := by
  rw [from_lengths_eq_fold]
  exact fold_insert_current L _ PrefixTree.new rfl



theorem walkSeq_path :
    ∀ (bits : List Nat) (root cur : Node) (v : Nat),
      bits ≠ [] →
      cur.valueAt bits = some v →
      (∀ p r, p ≠ [] → r ≠ [] → p ++ r = bits → cur.valueAt p = none) →
      PrefixTree.walkSeq ⟨root, cur⟩ bits =
        (List.replicate (bits.length - 1) none ++ [some v], ⟨root, root⟩) := by
  intro bits
  induction bits with
  | nil => intro root cur v hne _ _; exact absurd rfl hne
  | cons b rest ih =>
    intro root cur v _ hfin hmid
    rcases hcb : cur.child b with _ | m
    · exfalso
      unfold Node.valueAt Node.nodeAt at hfin
      rw [hcb] at hfin
      exact Option.noConfusion hfin
    · have hfin2 : m.valueAt rest = some v := by
        unfold Node.valueAt Node.nodeAt at hfin
        rw [hcb] at hfin
        exact hfin
      cases rest with
      | nil =>
        have hmv : m.value = some v := hfin2
        show PrefixTree.walkSeq ⟨root, cur⟩ [b] = ([some v], ⟨root, root⟩)
        unfold PrefixTree.walkSeq PrefixTree.walk
        dsimp only
        rw [hcb]
        dsimp only
        rw [hmv]
        rfl
      | cons c rest2 =>
        have hmv : m.value = none := by
          have h1 : cur.valueAt [b] = none :=
            hmid [b] (c :: rest2) (by simp) (by simp) rfl
          unfold Node.valueAt Node.nodeAt at h1
          rw [hcb] at h1
          exact h1
        have hrec := ih root m v (by simp) hfin2
          (fun p r hp hr hpr => by
            have := hmid (b :: p) r (by simp) hr (by simp [hpr])
            unfold Node.valueAt Node.nodeAt at this
            rw [hcb] at this
            exact this)
        show PrefixTree.walkSeq ⟨root, cur⟩ (b :: c :: rest2) = _
        unfold PrefixTree.walkSeq PrefixTree.walk
        dsimp only
        rw [hcb]
        dsimp only
        rw [hmv]
        dsimp only
        rw [hrec]
        simp [List.replicate_succ]



theorem assignedPath_length (L : List Nat) (s c : Nat) :
    (assignedPath L s c).length = L.getD s 0 := by
  simp [assignedPath, Code.bits, Code.from_parts]

theorem codes_getElem? (L : List Nat) (s : Nat) (c : Option Nat)
    (hs : s < (codes L).length) (h : (codes L).getD s none = c) :
    (codes L)[s]? = some c := by
  rw [List.getD_eq_getElem _ _ hs] at h
  rw [List.getElem?_eq_getElem hs, h]

/-- C8 (amended): round-trip of canonical-code construction and tree
walking, for every code-length vector whose assigned code paths are
prefix-free (`goodLengths`): feeding the `L[s]` bits of symbol `s`'s
canonical code, most significant bit first, into `walk` on
`from_lengths L` returns `none` on each of the first `L[s] - 1` bits and
`some s` on the final bit, after which the walker is back at the root
(the resulting tree equals `from_lengths L` itself, whose cursor is the
root). -/
theorem c8_roundtrip_walk (L : List Nat) (hgood : goodLengths L = true)
    (s c : Nat) (hs : s < L.length) (h0 : L.getD s 0 ≠ 0)
    (hc : (codes L).getD s none = some c) :
    PrefixTree.walkSeq (PrefixTree.from_lengths L) (assignedPath L s c) =
      (List.replicate (L.getD s 0 - 1) none ++ [some s],
        PrefixTree.from_lengths L) := by
  have hlenbits := assignedPath_length L s c
  have hbin : binaryBits (assignedPath L s c) := bits_binary _
  have hne : assignedPath L s c ≠ [] := by
    intro h
    rw [h] at hlenbits
    exact h0 hlenbits.symm
  have hsc : s < (codes L).length := by rw [codes_length]; exact hs
  have hmem : (s, some c) ∈ (codes L).enum :=
    (List.mk_mem_enum_iff_getElem?).mpr (codes_getElem? L s (some c) hsc hc)
  have huniq : ∀ i j ci cj, i < L.length → j < L.length → i ≠ j →
      (codes L).getD i none = some ci → (codes L).getD j none = some cj →
      (assignedPath L i ci).isPrefixOf (assignedPath L j cj) = false := by
    intro i j ci cj hi hj hij hgi hgj
    have hg := hgood
    unfold goodLengths at hg
    rw [List.all_eq_true] at hg
    have h1 := hg i (List.mem_range.mpr hi)
    rw [List.all_eq_true] at h1
    have h2 := h1 j (List.mem_range.mpr hj)
    rw [hgi, hgj] at h2
    rcases Bool.or_eq_true_iff.mp h2 with h3 | h3
    · exact absurd (by simpa using h3 : i = j) hij
    · simpa using h3
  have henum_shape : ∀ ic ∈ (codes L).enum, ic.1 < L.length ∧
      (codes L).getD ic.1 none = ic.2 := by
    intro ic hic
    obtain ⟨i, a⟩ := ic
    have h := (List.mk_mem_enum_iff_getElem?).mp hic
    have hlt : i < (codes L).length := by
      by_contra hge
      rw [List.getElem?_eq_none (by omega)] at h
      exact Option.noConfusion h
    constructor
    · rw [← codes_length L]; exact hlt
    · rw [List.getD_eq_getElem _ _ hlt]
      rw [List.getElem?_eq_getElem hlt] at h
      injection h
  have hval : (PrefixTree.from_lengths L).root.valueAt (assignedPath L s c) =
      some s := by
    rw [from_lengths_eq_fold]
    apply fold_insert_found L _ PrefixTree.new s c _ rfl hbin hmem
    intro ic hic ci hci hpath
    obtain ⟨hic1, hic2⟩ := henum_shape ic hic
    by_cases hise : ic.1 = s
    · have : ic.2 = some c := by rw [hci] at hic2; rw [hise] at hic2; rw [hc] at hic2; rw [hci]; injection hic2 with hh; rw [hh]
      obtain ⟨i, a⟩ := ic
      simp only at hise this
      rw [hise, this]
    · exfalso
      have hgi : (codes L).getD ic.1 none = some ci := by rw [hic2, hci]
      have hpre := huniq ic.1 s ci c hic1 hs hise hgi hc
      rw [hpath, isPrefixOf_self] at hpre
      exact Bool.noConfusion hpre
  have hmids : ∀ p r, p ≠ [] → r ≠ [] → p ++ r = assignedPath L s c →
      (PrefixTree.from_lengths L).root.valueAt p = none := by
    intro p r hp hr hpr
    have hbinp : binaryBits p := fun x hx => hbin x (by
      rw [← hpr]
      exact List.mem_append_left r hx)
    rw [from_lengths_eq_fold]
    rw [fold_insert_untouched L _ _ p hbinp ?_]
    · exact valueAt_new p
    · intro ic hic ci hci hpath
      obtain ⟨hic1, hic2⟩ := henum_shape ic hic
      have hplen : p.length < (assignedPath L s c).length := by
        have : p.length + r.length = (assignedPath L s c).length := by
          rw [← hpr, List.length_append]
        have hr1 : 1 ≤ r.length := by
          cases r with
          | nil => exact absurd rfl hr
          | cons x xs => simp
        omega
      by_cases hise : ic.1 = s
      · have hcic : ci = c := by
          rw [hci, hise, hc] at hic2
          injection hic2.symm
        rw [hise, hcic] at hpath
        rw [hpath] at hplen
        omega
      · have hgi : (codes L).getD ic.1 none = some ci := by rw [hic2, hci]
        have hpre := huniq ic.1 s ci c hic1 hs hise hgi hc
        rw [hpath] at hpre
        have htrue : p.isPrefixOf (assignedPath L s c) = true := by
          rw [← hpr]
          exact isPrefixOf_append_self p r
        rw [htrue] at hpre
        exact Bool.noConfusion hpre
  have hcur := from_lengths_current L
  rw [← hlenbits]
  rcases hT : PrefixTree.from_lengths L with ⟨R, C⟩
  rw [hT] at hval hmids hcur
  have hCR : C = R := hcur
  subst hCR
  exact walkSeq_path (assignedPath L s c) _ _ s hne hval hmids



/-- C8 (counterexample): for the oversubscribed length vector
`[1, 1, 1]` the claim fails as stated: symbol 0 is assigned code 0 of
length 1, whose bit path is `[0]`, yet feeding that single bit into the
tree returns `some 2` — the insertion of symbol 2 (code value 2, whose
single low bit is also 0) overwrote the leaf. -/
theorem c8_oversubscribed_counterexample :
    (codes [1, 1, 1]).getD 0 none = some 0 ∧
    assignedPath [1, 1, 1] 0 0 = [0] ∧
    (PrefixTree.walkSeq (PrefixTree.from_lengths [1, 1, 1])
      (assignedPath [1, 1, 1] 0 0)).1 = [some 2] ∧
    ([some 2] : List (Option Nat)) ≠ [some 0] := by
  refine ⟨by decide, by decide, ?_, by decide⟩
  rfl

/-- Witness for the amended C8 at the length vector
`[3, 3, 3, 3, 3, 2, 4, 4]` (the repository's own prefix-tree test data):
symbol 5 has length 2 and code 0; walking its two bits `0, 0` returns
`none` then `some 5`. -/
theorem c8_roundtrip_walk_witness :
    goodLengths [3, 3, 3, 3, 3, 2, 4, 4] = true ∧
    5 < ([3, 3, 3, 3, 3, 2, 4, 4] : List Nat).length ∧
    ([3, 3, 3, 3, 3, 2, 4, 4] : List Nat).getD 5 0 ≠ 0 ∧
    (codes [3, 3, 3, 3, 3, 2, 4, 4]).getD 5 none = some 0 ∧
    PrefixTree.walkSeq (PrefixTree.from_lengths [3, 3, 3, 3, 3, 2, 4, 4])
        (assignedPath [3, 3, 3, 3, 3, 2, 4, 4] 5 0) =
      (List.replicate (([3, 3, 3, 3, 3, 2, 4, 4] : List Nat).getD 5 0 - 1)
          none ++ [some 5],
        PrefixTree.from_lengths [3, 3, 3, 3, 3, 2, 4, 4]) :=
  ⟨by decide, by decide, by decide, by decide,
    c8_roundtrip_walk [3, 3, 3, 3, 3, 2, 4, 4] (by decide) 5 0 (by decide)
      (by decide) (by decide)⟩

end GzipRepo
